import Mathlib

/-!
# Verification of the BrFAST attribute-set search engine

This file is a shallow embedding, in Lean 4, of the core of the BrFAST
repository (the browser-fingerprint attribute selection framework): the
exploration controller (`brfast/exploration/__init__.py`), the FPSelect
algorithm (`brfast/exploration/fpselect.py`), the entropy-greedy algorithm
(`brfast/exploration/entropy.py`), the top-k sensitivity measure
(`brfast/measures/sensitivity/fpselect.py`), the usability-cost measures
(`brfast/measures/usability_cost/fpselect.py`) and the instability kernel
(`brfast/measures/usability_cost/instability.py`).

Modelling conventions:
* An `AttributeSet` is identified with the `Finset ℕ` of its attribute ids
  (in the source, hash and equality of an `AttributeSet` depend only on the
  set of ids, and iteration is in ascending id order, here `Finset.sort`).
* Numeric values (sensitivities, costs, entropies) are modelled as `ℚ`.
* Python sets of attribute sets are modelled as duplicate-free lists; the
  properties proved below do not depend on the iteration order.
* Wall-clock fields (`time` of a trace entry, `start_time`,
  `execution_time`) carry no information in the model: `start_time` is
  modelled by the Boolean "was `run` started", `execution_time` by an
  `Option Unit` that is `some` once a run finished.
* Python's `sorted(..., reverse=True)` is a stable descending sort; it is
  modelled by `List.insertionSort` with the relation `x ≼ y := key y ≤ key x`,
  which is also stable.
-/

namespace BrFAST

/-- The `State` enum of an explored attribute set
(`brfast/exploration/__init__.py`, class `State`). -/
inductive ExplorState where
  | explored
  | pruned
  | satisfying
  | emptyNode
deriving DecidableEq, Repr

/-- The integer encoding of the `State` enum (`State` is an `IntEnum` with
`EXPLORED = 1`, `PRUNED = 2`, `SATISFYING = 3`, `EMPTY_NODE = 4`). -/
def ExplorState.toCode : ExplorState → ℕ
  | .explored => 1
  | .pruned => 2
  | .satisfying => 3
  | .emptyNode => 4

/-- One entry of the exploration trace: the dictionary appended to
`_explored_attr_sets` (keys `attributes`, `sensitivity`, `usability_cost`,
`cost_explanation`, `state`; the wall-clock `time` key is not modelled). -/
structure TraceEntry where
  attributes : Finset ℕ
  sensitivity : ℚ
  usabilityCost : ℚ
  costExplanation : List (String × ℚ)
  state : ExplorState
deriving DecidableEq

/-- The errors of the exploration framework.  `explorationNotRun` models the
`ExplorationNotRun` exception, `sensitivityThresholdUnreachable` the
`SensitivityThresholdUnreachable` exception, and `invalidParameter` the
error raised by the `FPSelect` constructor on an invalid number of explored
paths (a Python `AttributeError`, the `InvalidParameter` error kind of the
design document). -/
inductive ExplorationError where
  | explorationNotRun
  | sensitivityThresholdUnreachable
  | invalidParameter
deriving DecidableEq, Repr

/-- The mutable state of an `Exploration` object: `_start_time` (abstracted
to "was it set"), `_solution[0]`, `_satisfying_attribute_sets`,
`_explored_attr_sets`, `_execution_time` and `_max_cost` (`none` models the
initial `float('inf')`). -/
structure ExplorationState where
  startTime : Bool
  solution : Option (Finset ℕ)
  satisfyingAttributeSets : List (Finset ℕ)
  exploredAttrSets : List TraceEntry
  executionTime : Option Unit
  maxCost : Option ℚ
deriving DecidableEq

/-- The state of a freshly constructed `Exploration` object
(`Exploration.__init__`). -/
def initialExplorationState : ExplorationState :=
  { startTime := false
    solution := none
    satisfyingAttributeSets := []
    exploredAttrSets := []
    executionTime := none
    maxCost := none }

/-- The parameters of an exploration: the candidate attributes of the
dataset and the two measures (the usability-cost measure returns a pair of
the total cost and the cost explanation, modelled as two functions). -/
structure ExplorationParams where
  candidateAttributes : Finset ℕ
  sensitivity : Finset ℕ → ℚ
  usabilityCost : Finset ℕ → ℚ
  costExplanation : Finset ℕ → List (String × ℚ)
  sensitivityThreshold : ℚ

/-- The trace entry recorded for the attribute set `Y` with state `st`. -/
def mkTraceEntry (p : ExplorationParams) (Y : Finset ℕ) (st : ExplorState) :
    TraceEntry :=
  { attributes := Y
    sensitivity := p.sensitivity Y
    usabilityCost := p.usabilityCost Y
    costExplanation := p.costExplanation Y
    state := st }

/-- The iteration over an `AttributeSet` in ascending id order (the
`SortedDict` of `AttributeSet` iterates the attributes by increasing id):
the ascending duplicate-free enumeration of a finite set of ids. -/
def sortedIds (A : Finset ℕ) : List ℕ :=
  (List.range (A.sup id + 1)).filter (fun a => decide (a ∈ A))

/-- Model of `Exploration._is_sensitivity_threshold_reachable`: computes the maximum
cost and the sensitivity of the full candidate attribute set, records the
candidate set in the trace (state `SATISFYING` and added to the satisfying
sets when its sensitivity is at most the threshold, state `EXPLORED`
otherwise) and returns whether the threshold is reachable. -/
def isSensitivityThresholdReachable (p : ExplorationParams)
    (st : ExplorationState) : ExplorationState × Bool :=
  let maxCost := p.usabilityCost p.candidateAttributes
  let maxCostExplanation := p.costExplanation p.candidateAttributes
  let sens := p.sensitivity p.candidateAttributes
  let reachable : Bool := decide (sens ≤ p.sensitivityThreshold)
  let st1 := { st with maxCost := some maxCost }
  let st2 :=
    if reachable then
      { st1 with satisfyingAttributeSets :=
          st1.satisfyingAttributeSets ++ [p.candidateAttributes] }
    else st1
  let entry : TraceEntry :=
    { attributes := p.candidateAttributes
      sensitivity := sens
      usabilityCost := maxCost
      costExplanation := maxCostExplanation
      state := if reachable then .satisfying else .explored }
  ({ st2 with exploredAttrSets := st2.exploredAttrSets ++ [entry] }, reachable)

/-- Model of `Exploration.run` (synchronous): sets the start time, performs the
feasibility check, and either raises `SensitivityThresholdUnreachable` or
runs the algorithm-specific `_search_for_solution` (the `search` parameter)
and sets the execution time.  The returned pair is the state of the
exploration object after the call together with its outcome. -/
def explorationRun (p : ExplorationParams)
    (search : ExplorationState → ExplorationState) :
    ExplorationState × Except ExplorationError Unit :=
  let st0 := { initialExplorationState with startTime := true }
  let r := isSensitivityThresholdReachable p st0
  if r.2 then
    let st2 := search r.1
    ({ st2 with executionTime := some () }, Except.ok ())
  else
    (r.1, Except.error .sensitivityThresholdUnreachable)

/-- The state of the exploration object after `run_asynchronous` whose
feasibility check failed: `run_asynchronous` sets the start time, and
`_asynchronous_execution` returns right after the failed check, without
setting the execution time (`Exploration.run_asynchronous` and
`Exploration._asynchronous_execution`). -/
def runAsynchronousUnreachableState (p : ExplorationParams) : ExplorationState :=
  (isSensitivityThresholdReachable p
    { initialExplorationState with startTime := true }).1

/-- Model of `Exploration._check_exploration_state`: raises `ExplorationNotRun` when
the run was not started, and `SensitivityThresholdUnreachable` when some
attribute sets were explored but none satisfies the threshold (the failed
asynchronous feasibility check). -/
def checkExplorationState (st : ExplorationState) :
    Except ExplorationError Unit :=
  if st.startTime = false then Except.error .explorationNotRun
  else if st.satisfyingAttributeSets = [] ∧ st.exploredAttrSets ≠ [] then
    Except.error .sensitivityThresholdUnreachable
  else Except.ok ()

/-- Model of `Exploration.get_solution`: after the state check, returns
`AttributeSet(self._solution[0])`; note that `AttributeSet(None)` is the
empty attribute set. -/
def getSolution (st : ExplorationState) :
    Except ExplorationError (Finset ℕ) := do
  checkExplorationState st
  pure (st.solution.getD ∅)

/-- Model of `Exploration.get_satisfying_attribute_sets`: after the state check,
returns `set(self._satisfying_attribute_sets)` (a set, here the
duplicate-free list). -/
def getSatisfyingAttributeSets (st : ExplorationState) :
    Except ExplorationError (List (Finset ℕ)) := do
  checkExplorationState st
  pure st.satisfyingAttributeSets.dedup

/-- Model of `Exploration.get_explored_attribute_sets`: only checks that the run was
started, then returns the requested slice of the trace (a Python slice
`l[s:e]` on natural bounds is `(l.take e).drop s`). -/
def getExploredAttributeSets (st : ExplorationState)
    (startId endId : Option ℕ) : Except ExplorationError (List TraceEntry) :=
  if st.startTime = false then Except.error .explorationNotRun
  else
    let s := startId.getD 0
    match endId with
    | none => Except.ok (st.exploredAttrSets.drop s)
    | some e => Except.ok ((st.exploredAttrSets.take e).drop s)

/-- Model of `Exploration.get_execution_time`: after the state check, returns the
execution time (`none` while the exploration is ongoing). -/
def getExecutionTime (st : ExplorationState) :
    Except ExplorationError (Option Unit) := do
  checkExplorationState st
  pure st.executionTime

/-- The data written by `Exploration.save_exploration_trace` (the
`result` and `exploration` parts of the JSON file; the run parameters and
the id-to-name map are external collaborators). -/
structure SavedTrace where
  solution : List ℕ
  satisfyingAttributes : List (List ℕ)
  exploration : List TraceEntry
deriving DecidableEq

/-- Model of `Exploration.save_exploration_trace`: after the state check, serializes
the solution, the satisfying attribute sets and the trace. -/
def saveExplorationTrace (st : ExplorationState) :
    Except ExplorationError SavedTrace := do
  checkExplorationState st
  pure
    { solution := (st.solution.getD ∅).sort (· ≤ ·)
      satisfyingAttributes :=
        st.satisfyingAttributeSets.dedup.map (fun A => A.sort (· ≤ ·))
      exploration := st.exploredAttrSets }

/-! ## FPSelect (`brfast/exploration/fpselect.py`)

The single-process code path is modelled (the multiprocessing path
partitions the same computations and merges them in the main thread).
Python sets of attribute sets are modelled as duplicate-free lists
(`addToSetList`); the theorems below do not depend on the iteration
order chosen here. -/

/-- The parameters of an FPSelect exploration; `explored_paths` is a Python
integer, which can be negative, hence `ℤ`. -/
structure FPSelectParams extends ExplorationParams where
  exploredPaths : ℤ
  pruning : Bool

/-- Model of `FPSelect.__init__`: the number of explored paths must be at least one,
otherwise the construction fails (a Python `AttributeError`, the
`InvalidParameter` error of the design document). -/
def fpselectConstruct (p : FPSelectParams) :
    Except ExplorationError FPSelectParams :=
  if p.exploredPaths < 1 then Except.error .invalidParameter
  else Except.ok p

/-- Addition to a Python set modelled on lists: a no-op when the element is
already present. -/
def addToSetList {α : Type} [DecidableEq α] (l : List α) (x : α) : List α :=
  if x ∈ l then l else l ++ [x]

/-- The candidates generated from one attribute set `X` to expand: `X`
together with one more candidate attribute not in `X`
(the inner loop of `_expand_attribute_sets`). -/
def expandOne (X : Finset ℕ) (candidateAttributes : Finset ℕ) :
    List (Finset ℕ) :=
  ((sortedIds candidateAttributes).filter (fun a => decide (a ∉ X))).map
    (fun a => insert a X)

/-- The filter of `_expand_attribute_sets`: a generated attribute set is
kept unless it is a superset of a satisfying attribute set, or (when the
pruning methods are used) a superset of an attribute set whose supersets
are to be ignored. -/
def keepExpanded (satisfyingAttributeSets : List (Finset ℕ))
    (ignoredSupersets : List (Finset ℕ)) (usePruningMethods : Bool)
    (Y : Finset ℕ) : Bool :=
  !(satisfyingAttributeSets.any (fun T => decide (T ⊆ Y))) &&
    !(usePruningMethods && ignoredSupersets.any (fun I => decide (I ⊆ Y)))

/-- Model of `_expand_attribute_sets`: the set `E` of the next attribute sets to
explore, obtained by adding one attribute to each set to expand and
filtering out the supersets described in `keepExpanded`. -/
def expandAttributeSets (attrSetsToExpand : List (Finset ℕ))
    (candidateAttributes : Finset ℕ)
    (satisfyingAttributeSets : List (Finset ℕ))
    (ignoredSupersets : List (Finset ℕ)) (usePruningMethods : Bool) :
    List (Finset ℕ) :=
  ((attrSetsToExpand.flatMap (fun X => expandOne X candidateAttributes)).filter
    (keepExpanded satisfyingAttributeSets ignoredSupersets
      usePruningMethods)).dedup

/-- The accumulator of `_explore_attribute_sets`: the efficiency dictionary
(an insertion-ordered association list), the process-local satisfying and
ignored-supersets sets, the shared solution storage (`solution_storage[0]`
and `solution_storage[1]`, where `none` models the initial `float('inf')`
minimum cost) and the shared trace. -/
structure ExploreAcc where
  efficiencies : List (Finset ℕ × ℚ)
  localSatisfying : List (Finset ℕ)
  localIgnored : List (Finset ℕ)
  solution : Option (Finset ℕ)
  minCost : Option ℚ
  trace : List TraceEntry

/-- The comparison `cost < current_min_cost` where the current minimum cost
may be the initial `float('inf')`. -/
def ltMinCost (c : ℚ) : Option ℚ → Bool
  | none => true
  | some m => decide (c < m)

/-- The body of the loop of `_explore_attribute_sets` for one attribute set
`Y`: computes its sensitivity and cost, classifies it (`SATISFYING`,
`EXPLORED` with an efficiency, or `PRUNED`), updates the satisfying /
ignored / solution storages and records `Y` in the trace. -/
def exploreOne (p : FPSelectParams) (maxCost : ℚ) (acc : ExploreAcc)
    (Y : Finset ℕ) : ExploreAcc :=
  let s := p.sensitivity Y
  let c := p.usabilityCost Y
  if decide (s ≤ p.sensitivityThreshold) then
    if ltMinCost c acc.minCost then
      { acc with
        localSatisfying := addToSetList acc.localSatisfying Y
        localIgnored := addToSetList acc.localIgnored Y
        minCost := some c
        solution := some Y
        trace := acc.trace ++
          [mkTraceEntry p.toExplorationParams Y .satisfying] }
    else
      { acc with
        localSatisfying := addToSetList acc.localSatisfying Y
        localIgnored := addToSetList acc.localIgnored Y
        trace := acc.trace ++
          [mkTraceEntry p.toExplorationParams Y .satisfying] }
  else if ltMinCost c acc.minCost then
    { acc with
      efficiencies := acc.efficiencies ++ [(Y, (maxCost - c) / s)]
      trace := acc.trace ++
        [mkTraceEntry p.toExplorationParams Y .explored] }
  else if p.pruning then
    { acc with
      localIgnored := addToSetList acc.localIgnored Y
      trace := acc.trace ++
        [mkTraceEntry p.toExplorationParams Y .pruned] }
  else
    { acc with trace := acc.trace ++
        [mkTraceEntry p.toExplorationParams Y .explored] }

/-- Model of `_explore_attribute_sets`: explore the attribute sets of a level. -/
def exploreAttributeSets (p : FPSelectParams) (maxCost : ℚ)
    (setsToExplore : List (Finset ℕ)) (acc : ExploreAcc) : ExploreAcc :=
  setsToExplore.foldl (exploreOne p maxCost) acc

/-- The state of an FPSelect exploration: the set `S` of attribute sets to
expand, the set `I` of attribute sets whose supersets are ignored, the
current minimum cost (`solution_storage[1]`) and the shared exploration
state. -/
structure FPSelectState where
  attributeSetsToExpand : List (Finset ℕ)
  attributeSetsIgnoredSupersets : List (Finset ℕ)
  minCost : Option ℚ
  exploration : ExplorationState
deriving DecidableEq

/-- One iteration of the `while` loop of `FPSelect._search_for_solution`:
expand the sets to expand, explore the resulting level, merge the local
satisfying and ignored sets (`update_after_exploration`), and keep the `k`
most efficient attribute sets (sorted by efficiency, descending and
stable) as the next sets to expand. -/
def fpselectStep (p : FPSelectParams) (maxCost : ℚ) (st : FPSelectState) :
    FPSelectState :=
  let setsToExplore := expandAttributeSets st.attributeSetsToExpand
    p.candidateAttributes st.exploration.satisfyingAttributeSets
    st.attributeSetsIgnoredSupersets p.pruning
  let acc := exploreAttributeSets p maxCost setsToExplore
    { efficiencies := []
      localSatisfying := []
      localIgnored := []
      solution := st.exploration.solution
      minCost := st.minCost
      trace := st.exploration.exploredAttrSets }
  let sortedEffs := acc.efficiencies.insertionSort
    (fun x y => y.2 ≤ x.2)
  { attributeSetsToExpand :=
      (sortedEffs.take p.exploredPaths.toNat).map Prod.fst
    attributeSetsIgnoredSupersets :=
      acc.localIgnored.foldl addToSetList st.attributeSetsIgnoredSupersets
    minCost := acc.minCost
    exploration := { st.exploration with
      solution := acc.solution
      satisfyingAttributeSets :=
        st.exploration.satisfyingAttributeSets ++ acc.localSatisfying
      exploredAttrSets := acc.trace } }

/-- The `while` loop of `FPSelect._search_for_solution`, with an explicit
fuel (the loop terminates because the sets to expand grow at each level and
stay inside the candidate attributes; every theorem below holds for every
amount of fuel). -/
def fpselectLoop (p : FPSelectParams) (maxCost : ℚ) :
    ℕ → FPSelectState → FPSelectState
  | 0, st => st
  | Nat.succ fuel, st =>
    if st.attributeSetsToExpand = [] then st
    else fpselectLoop p maxCost fuel (fpselectStep p maxCost st)

/-- The FPSelect state right after a successful feasibility check: the sets
to expand are initialized to the single empty set, the ignored supersets to
the empty set, and the minimum cost to `float('inf')`
(`FPSelect.__init__`). -/
def fpselectInitState (st : ExplorationState) : FPSelectState :=
  { attributeSetsToExpand := [∅]
    attributeSetsIgnoredSupersets := []
    minCost := none
    exploration := st }

/-- A synchronous `FPSelect.run`: the feasibility check of the shared
controller followed by `FPSelect._search_for_solution`. -/
def fpselectRun (p : FPSelectParams) (fuel : ℕ) :
    FPSelectState × Except ExplorationError Unit :=
  let st0 := { initialExplorationState with startTime := true }
  let r := isSensitivityThresholdReachable p.toExplorationParams st0
  if r.2 then
    let final := fpselectLoop p (p.usabilityCost p.candidateAttributes) fuel
      (fpselectInitState r.1)
    ({ final with exploration :=
        { final.exploration with executionTime := some () } }, Except.ok ())
  else
    (fpselectInitState r.1, Except.error .sensitivityThresholdUnreachable)

/-! ## Entropy-greedy exploration (`brfast/exploration/entropy.py`) -/

/-- The ranking of the candidate attributes by their single-attribute
entropy: the entropy dictionary is built in ascending id order
(`compute_attribute_entropy` iterates over the `AttributeSet`) and sorted
by value in reverse order (`sort_dict_by_value`, a stable descending
sort). -/
def rankedAttributes (candidateAttributes : Finset ℕ) (entropy : ℕ → ℚ) :
    List ℕ :=
  (sortedIds candidateAttributes).insertionSort
    (fun a b => entropy b ≤ entropy a)

/-- The loop of `Entropy._search_for_solution`: add the ranked attributes
one at a time to the current selection; record each selection as `EXPLORED`
while its sensitivity exceeds the threshold, and stop at the first
selection satisfying the threshold, which becomes the solution and is
added to the satisfying sets (state `SATISFYING`). -/
def entropyLoop (p : ExplorationParams) :
    List ℕ → Finset ℕ → ExplorationState → ExplorationState
  | [], _, st => st
  | a :: rest, current, st =>
    let Y := insert a current
    let s := p.sensitivity Y
    if decide (s ≤ p.sensitivityThreshold) then
      { st with
        solution := some Y
        satisfyingAttributeSets := st.satisfyingAttributeSets ++ [Y]
        exploredAttrSets := st.exploredAttrSets ++
          [mkTraceEntry p Y .satisfying] }
    else
      entropyLoop p rest Y
        { st with exploredAttrSets := st.exploredAttrSets ++
            [mkTraceEntry p Y .explored] }

/-- Model of `Entropy._search_for_solution`. -/
def entropySearchForSolution (p : ExplorationParams) (entropy : ℕ → ℚ)
    (st : ExplorationState) : ExplorationState :=
  entropyLoop p (rankedAttributes p.candidateAttributes entropy) ∅ st

/-! ## Usability cost measures (`brfast/measures/usability_cost/fpselect.py`)

The measures are parameterized by the per-attribute dictionaries `size`,
`instability` and `time` (average collection time and the asynchronous
flag) and the dimension weights; iteration over an attribute set is a sum
(respectively a running maximum), whose order is irrelevant. -/

/-- Model of `MemoryInstability._compute_memory_cost`: the raw memory cost of an
attribute set. -/
def computeMemoryCost (size : ℕ → ℚ) (A : Finset ℕ) : ℚ :=
  ∑ a ∈ A, size a

/-- Model of `MemoryInstability._compute_instability_cost`: the raw instability cost
of an attribute set. -/
def computeInstabilityCost (instability : ℕ → ℚ) (A : Finset ℕ) : ℚ :=
  ∑ a ∈ A, instability a

/-- Model of `MemoryInstabilityTime._compute_time_cost`: the collection time cost,
the larger of the total collection time of the sequential attributes and
the longest collection time of an asynchronous attribute (the running
maximum starts at `0.0`). -/
def computeTimeCost (time : ℕ → ℚ × Bool) (A : Finset ℕ) : ℚ :=
  max (∑ a ∈ A.filter (fun a => ¬(time a).2), (time a).1)
    ((A.filter (fun a => (time a).2)).fold max 0 (fun a => (time a).1))

/-- Model of `MemoryInstability.evaluate`: the total cost (the weighted memory cost
plus the weighted instability cost) and the cost explanation. -/
def memoryInstabilityEvaluate (size instability : ℕ → ℚ)
    (weightMemory weightInstability : ℚ) (A : Finset ℕ) :
    ℚ × List (String × ℚ) :=
  let memoryCost := computeMemoryCost size A
  let weightedMemoryCost := memoryCost * weightMemory
  let instabilityCost := computeInstabilityCost instability A
  let weightedInstabilityCost := instabilityCost * weightInstability
  (weightedMemoryCost + weightedInstabilityCost,
   [("memory", memoryCost), ("weighted_memory", weightedMemoryCost),
    ("instability", instabilityCost),
    ("weighted_instability", weightedInstabilityCost)])

/-- Model of `MemoryInstabilityTime.evaluate`: the total cost additionally includes
the weighted collection time cost. -/
def memoryInstabilityTimeEvaluate (size instability : ℕ → ℚ)
    (time : ℕ → ℚ × Bool)
    (weightMemory weightInstability weightTime : ℚ) (A : Finset ℕ) :
    ℚ × List (String × ℚ) :=
  let memoryCost := computeMemoryCost size A
  let weightedMemoryCost := memoryCost * weightMemory
  let instabilityCost := computeInstabilityCost instability A
  let weightedInstabilityCost := instabilityCost * weightInstability
  let colTimeCost := computeTimeCost time A
  let weightedColTimeCost := colTimeCost * weightTime
  (weightedMemoryCost + weightedInstabilityCost + weightedColTimeCost,
   [("memory", memoryCost), ("weighted_memory", weightedMemoryCost),
    ("instability", instabilityCost),
    ("weighted_instability", weightedInstabilityCost),
    ("time", colTimeCost), ("weighted_time", weightedColTimeCost)])

/-! ## Top-k fingerprints sensitivity
(`brfast/measures/sensitivity/fpselect.py`)

The working dataframe of `TopKFingerprints` is the deduplicated view, one
fingerprint per browser; it is modelled as a list of rows, each row being
a function from attribute ids to the textual value of that attribute (the
kernel converts every cell to a string, so that missing values become the
distinct category "nan" instead of being dropped).  Projecting a row on an
attribute set reads the columns in ascending id order. -/

/-- The projection of a row on the attributes of `A`
(`dataframe[attribute_names]` where the names are listed in ascending
attribute id order). -/
def projectRow (A : Finset ℕ) (row : ℕ → String) : List String :=
  (sortedIds A).map row

/-- The distinct values of a list together with their number of occurrences
(the `value_counts` of the projected dataframe, before sorting). -/
def groupCounts {α : Type} [DecidableEq α] (l : List α) : List (α × ℕ) :=
  l.dedup.map (fun v => (v, l.count v))

/-- The `k` most common values with their counts: `value_counts` sorts the
distinct rows by count, descending (a stable sort), and `head(k)` keeps the
first `k`. -/
def topKPairs {α : Type} [DecidableEq α] (k : ℕ) (l : List α) :
    List (α × ℕ) :=
  ((groupCounts l).insertionSort (fun x y => y.2 ≤ x.2)).take k

/-- The number of rows covered by the `k` most common values. -/
def topKCount {α : Type} [DecidableEq α] (k : ℕ) (l : List α) : ℕ :=
  ((topKPairs k l).map Prod.snd).sum

/-- The proportion of the rows covered by the `k` most common values (the
sum of the normalized counts of `value_counts(normalize=True)` over
`head(k)`). -/
def topKShare {α : Type} [DecidableEq α] (k : ℕ) (l : List α) : ℚ :=
  (topKCount k l : ℚ) / (l.length : ℚ)

/-- Model of `TopKFingerprints.evaluate`: the proportion of the browsers of the
deduplicated view `V` sharing the `k` most common fingerprints under the
attribute set `A`. -/
def topKFingerprintsEvaluate (V : List (ℕ → String)) (k : ℕ)
    (A : Finset ℕ) : ℚ :=
  topKShare k (V.map (projectRow A))

/-! ## Instability kernel
(`brfast/measures/usability_cost/instability.py`)

The kernel receives the full dataframe grouped by `browser_id` (without
sorting the group keys, so the groups appear in first-appearance order of
the browser ids) with each group sorted by `time_of_collect`, and for one
attribute walks the consecutive pairs of values of each group.  A cell of
the dataframe is either a proper value or the missing value `NaN`; the
Python comparison `value != next_value` is true on two `NaN`s. -/

/-- A cell of a dataframe column: a proper value or a missing value
(`NaN`). -/
inductive PandasValue where
  | missing
  | val (s : String)
deriving DecidableEq, Repr

/-- The Python `!=` comparison on two cells: `NaN != NaN` is `True`. -/
def pandasNe : PandasValue → PandasValue → Bool
  | .missing, _ => true
  | _, .missing => true
  | .val s, .val t => decide (s ≠ t)

/-- A row of the dataset restricted to the data needed by the instability
measure of one attribute: the browser id, the time of collect, and the
value of the attribute. -/
structure InstabilityRow where
  browserId : ℕ
  timeOfCollect : ℕ
  value : PandasValue
deriving DecidableEq, Repr

/-- The browser ids of the dataset in first-appearance order (the groups of
`groupby(browser_id, sort=False)`). -/
def browserIds (D : List InstabilityRow) : List ℕ :=
  (D.map (fun r => r.browserId)).dedup

/-- The group of one browser: its rows sorted by time of collect,
ascending (`sort_values(time_of_collect)`). -/
def browserGroup (D : List InstabilityRow) (b : ℕ) : List PandasValue :=
  (((D.filter (fun r => decide (r.browserId = b))).insertionSort
    (fun r s => r.timeOfCollect ≤ s.timeOfCollect)).map
      (fun r => r.value))

/-- The per-group loop of `_compute_attributes_instability`: starting from
the accumulated `(comparisons, changes)` counters, walk the pairs
`zip(attribute_values, attribute_values[1:])`, counting one comparison per
pair and one change per pair of different values. -/
def countGroup (cnt : ℕ × ℕ) (values : List PandasValue) : ℕ × ℕ :=
  (values.zip values.tail).foldl
    (fun c pair => (c.1 + 1, if pandasNe pair.1 pair.2 then c.2 + 1 else c.2))
    cnt

/-- The `(comparisons, changes)` counters of
`_compute_attributes_instability` for one attribute, accumulated over the
browser groups. -/
def instabilityCounters (D : List InstabilityRow) : ℕ × ℕ :=
  (browserIds D).foldl (fun c b => countGroup c (browserGroup D b)) (0, 0)

/-- Model of `_compute_attributes_instability` for one attribute: the
proportion of changes over the comparisons, `0.0` when there is no
comparison. -/
def attributeInstability (D : List InstabilityRow) : ℚ :=
  if (instabilityCounters D).1 = 0 then 0
  else ((instabilityCounters D).2 : ℚ) / ((instabilityCounters D).1 : ℚ)

/-- Modelled from the spec: the total number of comparisons, one per
adjacent pair of fingerprints of a browser group. -/
def specComparisons (D : List InstabilityRow) : ℕ :=
  (((browserIds D).map (browserGroup D)).map
    (fun g => (g.zip g.tail).length)).sum

/-- Modelled from the spec: the total number of changes, one per adjacent
pair of fingerprints of a browser group whose two values differ. -/
def specChanges (eqValue : PandasValue → PandasValue → Bool)
    (D : List InstabilityRow) : ℕ :=
  (((browserIds D).map (browserGroup D)).map
    (fun g => (g.zip g.tail).countP (fun q => !eqValue q.1 q.2))).sum

/-- Modelled from the spec: the instability measure as the specification
states it, parameterized by the equality used on two cells.  It groups the
rows by browser id, orders each group by time of collect, counts one
comparison per adjacent pair and one change per adjacent pair of values
that differ, and returns `changes / comparisons` when there is at least
one comparison and `0.0` otherwise. -/
def attributeInstabilitySpec (eqValue : PandasValue → PandasValue → Bool)
    (D : List InstabilityRow) : ℚ :=
  if 0 < specComparisons D then
    (specChanges eqValue D : ℚ) / (specComparisons D : ℚ)
  else 0

/-- The cell equality claimed by the specification: a missing value
compared with a missing value counts as equal. -/
def specEqValue : PandasValue → PandasValue → Bool
  | .missing, .missing => true
  | .missing, .val _ => false
  | .val _, .missing => false
  | .val s, .val t => decide (s = t)

/-- The cell equality actually computed by the code: `NaN != NaN` is
`True` in Python, so a missing value is never equal to anything, itself
included. -/
def codeEqValue (v w : PandasValue) : Bool :=
  !pandasNe v w

/-! ## Concrete instances used by witnesses and counterexamples -/

/-- An exploration whose sensitivity threshold is reachable: the sensitivity
of the full candidate set `{1, 2}` is `0`. -/
def exampleReachableParams : ExplorationParams :=
  { candidateAttributes := {1, 2}
    sensitivity := fun A => if A = {1, 2} then 0 else 1
    usabilityCost := fun A => (A.card : ℚ)
    costExplanation := fun _ => []
    sensitivityThreshold := 0 }

/-- An exploration whose sensitivity threshold is unreachable: every
attribute set has sensitivity `1`, above the threshold `0`. -/
def exampleUnreachableParams : ExplorationParams :=
  { candidateAttributes := {1}
    sensitivity := fun _ => 1
    usabilityCost := fun A => (A.card : ℚ)
    costExplanation := fun _ => []
    sensitivityThreshold := 0 }

/-- An FPSelect exploration with an invalid number of explored paths. -/
def exampleInvalidFPSelectParams : FPSelectParams :=
  { candidateAttributes := {1}
    sensitivity := fun _ => 1
    usabilityCost := fun A => (A.card : ℚ)
    costExplanation := fun _ => []
    sensitivityThreshold := 0
    exploredPaths := 0
    pruning := true }

/-- An FPSelect exploration with a single candidate attribute whose
sensitivity is `0` everywhere: the feasibility check adds the full
candidate set `{1}` to the satisfying sets, the expansion step then
excludes `{1}` (a superset of a satisfying set), no set is explored and
the run ends with the solution storage still unset. -/
def exampleSingletonFPSelectParams : FPSelectParams :=
  { candidateAttributes := {1}
    sensitivity := fun _ => 0
    usabilityCost := fun A => (A.card : ℚ)
    costExplanation := fun _ => []
    sensitivityThreshold := 0
    exploredPaths := 1
    pruning := false }

/-- The FPSelect exploration of the lattice example of the FPSelect paper
(the dummy measures of the test suite), with two explored paths and the
pruning methods on. -/
def examplePaperFPSelectParams : FPSelectParams :=
  { candidateAttributes := {1, 2, 3}
    sensitivity := fun A =>
      if A = {1} then 3/10 else if A = {2} then 3/10 else
      if A = {3} then 1/4 else if A = {1, 2} then 3/20 else
      if A = {1, 3} then 1/4 else if A = {2, 3} then 1/5 else
      if A = {1, 2, 3} then 1/20 else 1
    usabilityCost := fun A =>
      if A = {1} then 10 else if A = {2} then 15 else
      if A = {3} then 15 else if A = {1, 2} then 20 else
      if A = {1, 3} then 17 else if A = {2, 3} then 25 else
      if A = {1, 2, 3} then 30 else 0
    costExplanation := fun _ => []
    sensitivityThreshold := 3/20
    exploredPaths := 2
    pruning := true }

/-- An entropy-greedy exploration on two candidate attributes: attribute
`1` has the larger entropy, the selection `{1}` does not satisfy the
threshold and the selection `{1, 2}` does. -/
def exampleEntropyParams : ExplorationParams :=
  { candidateAttributes := {1, 2}
    sensitivity := fun A => if A = {1, 2} then 0 else 1
    usabilityCost := fun A => (A.card : ℚ)
    costExplanation := fun _ => []
    sensitivityThreshold := 0 }

/-- The entropies of the two attributes of `exampleEntropyParams`. -/
def exampleEntropy : ℕ → ℚ := fun a => if a = 1 then 2 else 1

/-- A dataset where one browser provides two fingerprints whose attribute
value is missing in both. -/
def exampleMissingPairDataset : List InstabilityRow :=
  [{ browserId := 1, timeOfCollect := 0, value := .missing },
   { browserId := 1, timeOfCollect := 1, value := .missing }]

/-- A two-row deduplicated view on two attributes: the two rows agree on
attribute `1` and differ on attribute `2`. -/
def exampleTopKView : List (ℕ → String) :=
  [fun _ => "x", fun i => if i = 1 then "x" else "y"]

/-- The attribute set obtained from the first `i` attributes of a ranking
(the selection built by the entropy-greedy loop after `i` additions). -/
def rankPrefixSet (l : List ℕ) (i : ℕ) : Finset ℕ :=
  (l.take i).toFinset

/-- The relation underlying the pruning-safety claim: once a trace entry is
classified `SATISFYING` or `PRUNED` (exactly the classifications whose
attribute set is added to the ignored-supersets set `I` during the level
exploration), no strict superset of its attribute set may appear later in
the trace. -/
def pruneSafeRel (e₁ e₂ : TraceEntry) : Prop :=
  (e₁.state = ExplorState.satisfying ∨ e₁.state = ExplorState.pruned) →
    ¬ e₁.attributes ⊂ e₂.attributes

/-- The FPSelect loop invariant used for the pruning-safety claim: trace
entries stay inside the candidate attributes, `SATISFYING` and `PRUNED`
entries are registered in the ignored-supersets set (or are the initial
candidate-set entry of the feasibility check), the sets to expand are
subsets of the candidate attributes of a common size (a level), and the
trace satisfies the pruning-safety relation pairwise. -/
def PruneSafeInv (p : FPSelectParams) (st : FPSelectState) : Prop :=
  (∀ e ∈ st.exploration.exploredAttrSets,
    e.attributes ⊆ p.candidateAttributes)
  ∧ (∀ e ∈ st.exploration.exploredAttrSets,
      (e.state = ExplorState.satisfying ∨ e.state = ExplorState.pruned) →
        e.attributes ∈ st.attributeSetsIgnoredSupersets
        ∨ e.attributes = p.candidateAttributes)
  ∧ (∃ n, ∀ X ∈ st.attributeSetsToExpand,
      X ⊆ p.candidateAttributes ∧ X.card = n)
  ∧ st.exploration.exploredAttrSets.Pairwise pruneSafeRel

/-- The solution-storage invariant of the FPSelect loop: either no
satisfying attribute set has been found by the level exploration yet (the
solution and the minimum cost are still unset), or the stored solution is
one of the satisfying sets found by the level exploration, its stored
minimum cost is its cost, and no other satisfying set found by the level
exploration costs less. -/
def SolutionInv (cost : Finset ℕ → ℚ) (sol : Option (Finset ℕ))
    (minCost : Option ℚ) (sats : List (Finset ℕ)) : Prop :=
  (sol = none → minCost = none ∧ sats = [])
  ∧ ∀ y, sol = some y →
      y ∈ sats ∧ minCost = some (cost y) ∧ ∀ z ∈ sats, cost y ≤ cost z

/-- The FPSelect state invariant for the solution claim: the satisfying
sets are the candidate attribute set (added by the feasibility check)
followed by the sets found during the level explorations, the run is
started, and the solution storage is governed by `SolutionInv`. -/
def FPSolutionInv (p : FPSelectParams) (st : FPSelectState) : Prop :=
  st.exploration.startTime = true
  ∧ ∃ rest, st.exploration.satisfyingAttributeSets =
      p.candidateAttributes :: rest
    ∧ SolutionInv p.usabilityCost st.exploration.solution st.minCost rest

/-- An FPSelect exploration on two candidate attributes where every
singleton already satisfies the threshold: the loop explores `{1}` and
`{2}`, both satisfying, and the solution is the cheapest of the two. -/
def exampleTwoSatFPSelectParams : FPSelectParams :=
  { candidateAttributes := {1, 2}
    sensitivity := fun A => if A = ∅ then 1 else 0
    usabilityCost := fun A => (A.card : ℚ)
    costExplanation := fun _ => []
    sensitivityThreshold := 0
    exploredPaths := 1
    pruning := false }

/-- The map recovering the projection of a row on `A` from its projection
on a superset `B`: keep the values of `B`-ids that belong to `A`.  It
witnesses that the deduplicated view under `B` refines the view under `A`,
the combinatorial core of the sensitivity-monotonicity claim. -/
def refineMap (A B : Finset ℕ) (ys : List String) : List String :=
  (((sortedIds B).zip ys).filter (fun q => decide (q.1 ∈ A))).map Prod.snd

/-! # Theorems -/

/-- C9: constructing an FPSelect exploration rejects a number of explored
paths below one with an `InvalidParameter` error (in the source a Python
`AttributeError`), for every dataset, measure pair, sensitivity threshold
and pruning flag — and accepts any other number of explored paths. -/
theorem fpselect_rejects_low_explored_paths (p : FPSelectParams) :
    fpselectConstruct p = Except.error .invalidParameter ↔
      p.exploredPaths < 1 := by
  unfold fpselectConstruct
  split <;> simp_all

/-- Witness for C9: the construction with zero explored paths fails. -/
theorem fpselect_rejects_low_explored_paths_witness :
    fpselectConstruct exampleInvalidFPSelectParams =
      Except.error .invalidParameter :=
  (fpselect_rejects_low_explored_paths exampleInvalidFPSelectParams).mpr
    (by decide)

/-- C2: a synchronous `run` computes the sensitivity of the full candidate
attribute set and raises `SensitivityThresholdUnreachable` exactly when it
exceeds the threshold; otherwise the candidate set is recorded as the sole
(hence first) trace entry with state `SATISFYING` and added to the
satisfying sets in the state handed to the algorithm-specific search. -/
theorem run_feasibility_check (p : ExplorationParams)
    (search : ExplorationState → ExplorationState) :
    ((explorationRun p search).2 =
        Except.error .sensitivityThresholdUnreachable ↔
      p.sensitivityThreshold < p.sensitivity p.candidateAttributes)
    ∧ (p.sensitivity p.candidateAttributes ≤ p.sensitivityThreshold →
      (isSensitivityThresholdReachable p
          { initialExplorationState with startTime := true }).1.exploredAttrSets
        = [{ attributes := p.candidateAttributes
             sensitivity := p.sensitivity p.candidateAttributes
             usabilityCost := p.usabilityCost p.candidateAttributes
             costExplanation := p.costExplanation p.candidateAttributes
             state := .satisfying }]
      ∧ p.candidateAttributes ∈ (isSensitivityThresholdReachable p
          { initialExplorationState with
            startTime := true }).1.satisfyingAttributeSets
      ∧ (explorationRun p search).1
        = { search (isSensitivityThresholdReachable p
              { initialExplorationState with startTime := true }).1 with
            executionTime := some () }) := by
  by_cases h : p.sensitivity p.candidateAttributes ≤ p.sensitivityThreshold
  · refine ⟨?_, fun _ => ?_⟩
    · simp [explorationRun, isSensitivityThresholdReachable, h, not_lt.mpr h]
    · refine ⟨?_, ?_, ?_⟩
      · simp [isSensitivityThresholdReachable, h, initialExplorationState]
      · simp [isSensitivityThresholdReachable, h, initialExplorationState]
      · simp [explorationRun, isSensitivityThresholdReachable, h]
  · refine ⟨?_, fun h' => absurd h' h⟩
    simp [explorationRun, isSensitivityThresholdReachable, h, lt_of_not_le h]

/-- Witness for C2: on a concrete exploration whose feasibility check
succeeds, the candidate set `{1, 2}` is the sole trace entry, with state
`SATISFYING`, and belongs to the satisfying sets. -/
theorem run_feasibility_check_witness :
    (isSensitivityThresholdReachable exampleReachableParams
        { initialExplorationState with startTime := true }).1.exploredAttrSets
      = [{ attributes := exampleReachableParams.candidateAttributes
           sensitivity := exampleReachableParams.sensitivity
             exampleReachableParams.candidateAttributes
           usabilityCost := exampleReachableParams.usabilityCost
             exampleReachableParams.candidateAttributes
           costExplanation := exampleReachableParams.costExplanation
             exampleReachableParams.candidateAttributes
           state := .satisfying }]
    ∧ exampleReachableParams.candidateAttributes ∈
      (isSensitivityThresholdReachable exampleReachableParams
        { initialExplorationState with
          startTime := true }).1.satisfyingAttributeSets := by
  have h := (run_feasibility_check exampleReachableParams id).2 (by decide)
  exact ⟨h.1, h.2.1⟩

/-- C10: when a synchronous `run` fails the feasibility check, the state of
the exploration object has already been mutated when the error propagates:
the trace holds exactly one entry, the full candidate set with state
`EXPLORED` (encoded `1`), its sensitivity and the maximum cost; the maximum
cost field is set; the satisfying sets stay empty and the solution stays
unset. -/
theorem run_unreachable_mutates_state (p : ExplorationParams)
    (search : ExplorationState → ExplorationState)
    (h : p.sensitivityThreshold < p.sensitivity p.candidateAttributes) :
    (explorationRun p search).2 =
      Except.error .sensitivityThresholdUnreachable
    ∧ (explorationRun p search).1.exploredAttrSets
      = [{ attributes := p.candidateAttributes
           sensitivity := p.sensitivity p.candidateAttributes
           usabilityCost := p.usabilityCost p.candidateAttributes
           costExplanation := p.costExplanation p.candidateAttributes
           state := .explored }]
    ∧ ExplorState.toCode .explored = 1
    ∧ (explorationRun p search).1.maxCost
      = some (p.usabilityCost p.candidateAttributes)
    ∧ (explorationRun p search).1.satisfyingAttributeSets = []
    ∧ (explorationRun p search).1.solution = none := by
  have h' : ¬ p.sensitivity p.candidateAttributes ≤ p.sensitivityThreshold :=
    not_le.mpr h
  refine ⟨?_, ?_, rfl, ?_, ?_, ?_⟩ <;>
    simp [explorationRun, isSensitivityThresholdReachable, h',
      initialExplorationState]

/-- Witness for C10: the concrete unreachable exploration ends with the
one-entry trace, empty satisfying sets and no solution. -/
theorem run_unreachable_mutates_state_witness :
    (explorationRun exampleUnreachableParams id).2 =
      Except.error .sensitivityThresholdUnreachable
    ∧ (explorationRun exampleUnreachableParams id).1.satisfyingAttributeSets
      = []
    ∧ (explorationRun exampleUnreachableParams id).1.solution = none := by
  have h := run_unreachable_mutates_state exampleUnreachableParams id
    (by decide)
  exact ⟨h.1, h.2.2.2.2.1, h.2.2.2.2.2⟩

/-- C8 (amended): every accessor (`get_solution`,
`get_satisfying_attribute_sets`, `get_explored_attribute_sets`,
`get_execution_time`, `save_exploration_trace`) raises `ExplorationNotRun`
when called before the run is started; after an asynchronous run that
failed the feasibility check, `get_solution`,
`get_satisfying_attribute_sets`, `get_execution_time` and
`save_exploration_trace` raise `SensitivityThresholdUnreachable`, while
`get_explored_attribute_sets` does not raise: it returns the requested
slice of the trace. -/
theorem accessors_state_checks :
    (∀ st : ExplorationState, st.startTime = false →
      getSolution st = Except.error .explorationNotRun
      ∧ getSatisfyingAttributeSets st = Except.error .explorationNotRun
      ∧ (∀ s e, getExploredAttributeSets st s e =
          Except.error .explorationNotRun)
      ∧ getExecutionTime st = Except.error .explorationNotRun
      ∧ saveExplorationTrace st = Except.error .explorationNotRun)
    ∧ (∀ p : ExplorationParams,
        p.sensitivityThreshold < p.sensitivity p.candidateAttributes →
      getSolution (runAsynchronousUnreachableState p) =
        Except.error .sensitivityThresholdUnreachable
      ∧ getSatisfyingAttributeSets (runAsynchronousUnreachableState p) =
        Except.error .sensitivityThresholdUnreachable
      ∧ getExecutionTime (runAsynchronousUnreachableState p) =
        Except.error .sensitivityThresholdUnreachable
      ∧ saveExplorationTrace (runAsynchronousUnreachableState p) =
        Except.error .sensitivityThresholdUnreachable
      ∧ (∀ s e, ∃ l, getExploredAttributeSets
          (runAsynchronousUnreachableState p) s e = Except.ok l)) := by
  constructor
  · intro st hst
    refine ⟨?_, ?_, ?_, ?_, ?_⟩ <;>
      simp [getSolution, getSatisfyingAttributeSets,
        getExploredAttributeSets, getExecutionTime, saveExplorationTrace,
        checkExplorationState, hst]
  · intro p hp
    have h' : ¬ p.sensitivity p.candidateAttributes ≤
        p.sensitivityThreshold := not_le.mpr hp
    have hsat : (runAsynchronousUnreachableState p).satisfyingAttributeSets
        = [] := by
      simp [runAsynchronousUnreachableState, isSensitivityThresholdReachable,
        h', initialExplorationState]
    have hexp : (runAsynchronousUnreachableState p).exploredAttrSets ≠ [] := by
      simp [runAsynchronousUnreachableState, isSensitivityThresholdReachable,
        h', initialExplorationState]
    have hstart : (runAsynchronousUnreachableState p).startTime = true := by
      simp [runAsynchronousUnreachableState, isSensitivityThresholdReachable,
        h', initialExplorationState]
    have hcheck : checkExplorationState (runAsynchronousUnreachableState p)
        = Except.error .sensitivityThresholdUnreachable := by
      simp [checkExplorationState, hstart, hsat, hexp]
    refine ⟨?_, ?_, ?_, ?_, ?_⟩
    · simp [getSolution, hcheck]
    · simp [getSatisfyingAttributeSets, hcheck]
    · simp [getExecutionTime, hcheck]
    · simp [saveExplorationTrace, hcheck]
    · intro s e
      cases e <;> simp [getExploredAttributeSets, hstart]

/-- Witness for C8: concrete accessor calls on a never-started exploration
and on a failed asynchronous exploration. -/
theorem accessors_state_checks_witness :
    getSolution initialExplorationState = Except.error .explorationNotRun
    ∧ getSolution (runAsynchronousUnreachableState exampleUnreachableParams)
      = Except.error .sensitivityThresholdUnreachable
    ∧ (∃ l, getExploredAttributeSets
        (runAsynchronousUnreachableState exampleUnreachableParams) none none
        = Except.ok l) :=
  ⟨(accessors_state_checks.1 initialExplorationState rfl).1,
   (accessors_state_checks.2 exampleUnreachableParams (by decide)).1,
   (accessors_state_checks.2 exampleUnreachableParams
     (by decide)).2.2.2.2 none none⟩

/-- Counterexample for C8 as stated: after an asynchronous run that failed
the feasibility check, the accessor `get_explored_attribute_sets` does not
raise `SensitivityThresholdUnreachable` (it only checks that the run was
started and returns the trace slice). -/
theorem accessors_get_explored_counterexample :
    getExploredAttributeSets
      (runAsynchronousUnreachableState exampleUnreachableParams) none none
      ≠ Except.error .sensitivityThresholdUnreachable := by
  have hstart :
      (runAsynchronousUnreachableState exampleUnreachableParams).startTime
        = true := by decide
  simp [getExploredAttributeSets, hstart]

/-- The per-group counting loop of the instability kernel accumulates the
number of adjacent pairs into the comparison counter and the number of
differing adjacent pairs into the change counter. -/
theorem countGroup_eq (cnt : ℕ × ℕ) (values : List PandasValue) :
    countGroup cnt values =
      (cnt.1 + (values.zip values.tail).length,
       cnt.2 + (values.zip values.tail).countP
         (fun q => pandasNe q.1 q.2)) := by
  unfold countGroup
  generalize values.zip values.tail = l
  induction l generalizing cnt with
  | nil => simp
  | cons q l ih =>
    rw [List.foldl_cons, ih]
    simp only [List.length_cons, List.countP_cons]
    by_cases h : pandasNe q.1 q.2 <;> simp [h] <;> omega

/-- The fold of the instability kernel over the browser groups accumulates
the per-group comparison and change counts. -/
theorem instability_fold_eq (D : List InstabilityRow) (bs : List ℕ)
    (cnt : ℕ × ℕ) :
    bs.foldl (fun c b => countGroup c (browserGroup D b)) cnt =
      (cnt.1 + (bs.map (fun b =>
        ((browserGroup D b).zip (browserGroup D b).tail).length)).sum,
       cnt.2 + (bs.map (fun b =>
        ((browserGroup D b).zip (browserGroup D b).tail).countP
          (fun q => pandasNe q.1 q.2))).sum) := by
  induction bs generalizing cnt with
  | nil => simp
  | cons b bs ih =>
    rw [List.foldl_cons, countGroup_eq, ih]
    simp only [List.map_cons, List.sum_cons, Prod.mk.injEq]
    omega

/-- C7 (amended): for every attribute column, the instability measure
groups the rows by `browser_id` in first-appearance order, orders each
group by `time_of_collect` ascending, counts one comparison per adjacent
pair of fingerprints and one change when the two values differ, and
returns `changes / comparisons` when `comparisons > 0` and `0.0`
otherwise — where a missing value compared with a missing value counts as
a change (Python's `NaN != NaN` is true), not as equal. -/
theorem attribute_instability_eq_spec (D : List InstabilityRow) :
    attributeInstability D = attributeInstabilitySpec codeEqValue D := by
  have h1 : (instabilityCounters D).1 = specComparisons D := by
    rw [instabilityCounters, instability_fold_eq]
    simp [specComparisons, List.map_map, Function.comp_def]
  have h2 : (instabilityCounters D).2 = specChanges codeEqValue D := by
    rw [instabilityCounters, instability_fold_eq]
    simp [specChanges, List.map_map, Function.comp_def, codeEqValue,
      Bool.not_not]
  rw [attributeInstability, attributeInstabilitySpec, h1, h2]
  by_cases h : specComparisons D = 0
  · rw [if_pos h, if_neg (by omega)]
  · rw [if_neg h, if_pos (by omega)]

/-- Counterexample for C7 as stated: on a browser providing two
fingerprints whose attribute value is missing in both, the code counts the
missing-to-missing comparison as a change (instability `1`), while the
claimed missing-equals-missing semantics would give instability `0`. -/
theorem attribute_instability_missing_counterexample :
    attributeInstability exampleMissingPairDataset ≠
      attributeInstabilitySpec specEqValue exampleMissingPairDataset := by
  have h1 : instabilityCounters exampleMissingPairDataset = (1, 1) := by
    decide
  have h2 : specComparisons exampleMissingPairDataset = 1 := by decide
  have h3 : specChanges specEqValue exampleMissingPairDataset = 0 := by
    decide
  rw [attributeInstability, attributeInstabilitySpec, h1, h2, h3]
  norm_num

/-- The total cost of `MemoryInstability.evaluate` is the sum of the
per-attribute weighted memory and instability contributions. -/
theorem memoryInstability_total_eq (size instability : ℕ → ℚ)
    (wm wi : ℚ) (A : Finset ℕ) :
    (memoryInstabilityEvaluate size instability wm wi A).1 =
      ∑ a ∈ A, (size a * wm + instability a * wi) := by
  simp [memoryInstabilityEvaluate, computeMemoryCost, computeInstabilityCost,
    Finset.sum_mul, Finset.sum_add_distrib]

/-- The total cost of `MemoryInstabilityTime.evaluate` adds the weighted
collection time cost to the memory and instability contributions. -/
theorem memoryInstabilityTime_total_eq (size instability : ℕ → ℚ)
    (time : ℕ → ℚ × Bool) (wm wi wt : ℚ) (A : Finset ℕ) :
    (memoryInstabilityTimeEvaluate size instability time wm wi wt A).1 =
      (∑ a ∈ A, (size a * wm + instability a * wi))
        + computeTimeCost time A * wt := by
  simp [memoryInstabilityTimeEvaluate, computeMemoryCost,
    computeInstabilityCost, Finset.sum_mul, Finset.sum_add_distrib]

/-- The collection time cost is monotone under set inclusion when the
average collection times are nonnegative. -/
theorem computeTimeCost_mono (time : ℕ → ℚ × Bool)
    (htime : ∀ a, 0 ≤ (time a).1) {A B : Finset ℕ} (hAB : A ⊆ B) :
    computeTimeCost time A ≤ computeTimeCost time B := by
  unfold computeTimeCost
  apply max_le_max
  · exact Finset.sum_le_sum_of_subset_of_nonneg
      (Finset.filter_subset_filter _ hAB) (fun i _ _ => htime i)
  · apply (Finset.fold_max_le _).mpr
    refine ⟨(Finset.le_fold_max _).mpr (Or.inl le_rfl), fun x hx => ?_⟩
    exact (Finset.le_fold_max _).mpr
      (Or.inr ⟨x, Finset.filter_subset_filter _ hAB hx, le_rfl⟩)

/-- C4 (amended): the built-in usability cost measures `MemoryInstability`
and `MemoryInstabilityTime` are strictly increasing under strict set
inclusion, provided every attribute has a strictly positive weighted
memory-plus-instability contribution, and (for the time dimension) the
average collection times and the time weight are nonnegative. -/
theorem usability_cost_strictly_increasing (size instability : ℕ → ℚ)
    (time : ℕ → ℚ × Bool) (wm wi wt : ℚ)
    (hpos : ∀ a, 0 < size a * wm + instability a * wi)
    (htime : ∀ a, 0 ≤ (time a).1) (hwt : 0 ≤ wt)
    (A B : Finset ℕ) (hAB : A ⊂ B) :
    (memoryInstabilityEvaluate size instability wm wi A).1 <
      (memoryInstabilityEvaluate size instability wm wi B).1
    ∧ (memoryInstabilityTimeEvaluate size instability time wm wi wt A).1 <
      (memoryInstabilityTimeEvaluate size instability time wm wi wt B).1 := by
  obtain ⟨i, hiB, hiA⟩ := Finset.exists_of_ssubset hAB
  have key : (∑ a ∈ A, (size a * wm + instability a * wi)) <
      ∑ a ∈ B, (size a * wm + instability a * wi) :=
    Finset.sum_lt_sum_of_subset hAB.subset hiB hiA (hpos i)
      (fun j _ _ => (hpos j).le)
  constructor
  · rw [memoryInstability_total_eq, memoryInstability_total_eq]
    exact key
  · rw [memoryInstabilityTime_total_eq, memoryInstabilityTime_total_eq]
    exact add_lt_add_of_lt_of_le key
      (mul_le_mul_of_nonneg_right
        (computeTimeCost_mono time htime hAB.subset) hwt)

/-- Witness for C4: on a concrete positive measure, adding the attribute
`0` to the empty set strictly increases both total costs. -/
theorem usability_cost_strictly_increasing_witness :
    (memoryInstabilityEvaluate (fun _ => 1) (fun _ => 0) 1 1 ∅).1 <
      (memoryInstabilityEvaluate (fun _ => 1) (fun _ => 0) 1 1 {0}).1
    ∧ (memoryInstabilityTimeEvaluate (fun _ => 1) (fun _ => 0)
        (fun _ => (0, false)) 1 1 1 ∅).1 <
      (memoryInstabilityTimeEvaluate (fun _ => 1) (fun _ => 0)
        (fun _ => (0, false)) 1 1 1 {0}).1 :=
  usability_cost_strictly_increasing (fun _ => 1) (fun _ => 0)
    (fun _ => (0, false)) 1 1 1 (fun _ => by norm_num) (fun _ => le_rfl)
    (by norm_num) ∅ {0} (by decide)

/-- Counterexample for C4 as stated: with all attribute sizes and
instabilities zero, both built-in usability cost measures evaluate every
attribute set to the same total cost, so they are not strictly increasing
under strict set inclusion. -/
theorem usability_cost_not_strictly_increasing :
    ¬ ((∀ (size instability : ℕ → ℚ) (wm wi : ℚ) (A B : Finset ℕ),
        A ⊂ B →
          (memoryInstabilityEvaluate size instability wm wi A).1 <
            (memoryInstabilityEvaluate size instability wm wi B).1)
      ∧ (∀ (size instability : ℕ → ℚ) (time : ℕ → ℚ × Bool)
          (wm wi wt : ℚ) (A B : Finset ℕ), A ⊂ B →
          (memoryInstabilityTimeEvaluate size instability time
            wm wi wt A).1 <
            (memoryInstabilityTimeEvaluate size instability time
              wm wi wt B).1)) := by
  intro h
  have h0 := h.1 (fun _ => 0) (fun _ => 0) 1 1 ∅ {0} (by decide)
  rw [memoryInstability_total_eq, memoryInstability_total_eq] at h0
  simp at h0

/-- Membership in the ascending enumeration of a finite set of ids. -/
theorem mem_sortedIds {A : Finset ℕ} {x : ℕ} :
    x ∈ sortedIds A ↔ x ∈ A := by
  simp only [sortedIds, List.mem_filter, List.mem_range,
    decide_eq_true_eq]
  exact ⟨fun h => h.2,
    fun h => ⟨Nat.lt_succ_of_le (Finset.le_sup (f := id) h), h⟩⟩

/-- The ascending enumeration of a finite set of ids is strictly
increasing. -/
theorem sortedIds_pairwise_lt (A : Finset ℕ) :
    (sortedIds A).Pairwise (· < ·) :=
  (List.pairwise_lt_range _).filter _

/-- The ascending enumeration of a finite set of ids has no duplicate. -/
theorem sortedIds_nodup (A : Finset ℕ) : (sortedIds A).Nodup :=
  (sortedIds_pairwise_lt A).imp ne_of_lt

/-- The ascending enumeration of a finite set of ids enumerates as many
elements as the set has. -/
theorem sortedIds_length (A : Finset ℕ) :
    (sortedIds A).length = A.card := by
  have h1 : (sortedIds A).toFinset = A := by
    ext x
    rw [List.mem_toFinset, mem_sortedIds]
  rw [← List.toFinset_card_of_nodup (sortedIds_nodup A), h1]

/-- In a duplicate-free list, a pair cannot occur as a sublist in both
orders. -/
theorem pair_sublist_antisymm {α : Type} {x y : α} :
    ∀ {l : List α}, l.Nodup → [x, y].Sublist l → [y, x].Sublist l →
      x = y := by
  intro l
  induction l with
  | nil => intro _ h; exact absurd h (by simp)
  | cons a t ih =>
    intro hnd h1 h2
    obtain ⟨hat, hndt⟩ := List.nodup_cons.mp hnd
    cases h1 with
    | cons _ h1' =>
      cases h2 with
      | cons _ h2' => exact ih hndt h1' h2'
      | cons₂ _ h2' =>
        exact absurd (h1'.subset (by simp)) hat
    | cons₂ _ h1' =>
      cases h2 with
      | cons _ h2' => exact absurd (h2'.subset (by simp)) hat
      | cons₂ _ h2' => rfl

/-- Two distinct members of a list occur as a two-element sublist in one of
the two orders. -/
theorem pair_sublist_or_of_mem {α : Type} {x y : α} :
    ∀ {l : List α}, x ∈ l → y ∈ l → x ≠ y →
      [x, y].Sublist l ∨ [y, x].Sublist l := by
  intro l
  induction l with
  | nil => intro hx; exact absurd hx (by simp)
  | cons a t ih =>
    intro hx hy hxy
    rcases List.mem_cons.mp hx with hxa | hxt
    · subst hxa
      have hyt : y ∈ t := (List.mem_cons.mp hy).resolve_left
        (fun h => hxy h.symm)
      exact Or.inl (List.Sublist.cons₂ x (List.singleton_sublist.mpr hyt))
    · rcases List.mem_cons.mp hy with hya | hyt
      · subst hya
        exact Or.inr (List.Sublist.cons₂ y (List.singleton_sublist.mpr hxt))
      · exact (ih hxt hyt hxy).imp (List.Sublist.cons a) (List.Sublist.cons a)

/-- A stable descending sort by a key, applied to a strictly increasing
list, is sorted for the lexicographic order "larger key first, ties broken
by the original (increasing) order". -/
theorem insertionSort_desc_pairwise (H : ℕ → ℚ) (l : List ℕ)
    (hl : l.Pairwise (· < ·)) :
    (l.insertionSort (fun a b => H b ≤ H a)).Pairwise
      (fun a b => H b < H a ∨ (H a = H b ∧ a < b)) := by
  haveI : IsTotal ℕ (fun a b => H b ≤ H a) := ⟨fun a b => le_total (H b) (H a)⟩
  haveI : IsTrans ℕ (fun a b => H b ≤ H a) :=
    ⟨fun _ _ _ hab hbc => le_trans hbc hab⟩
  have hnd : l.Nodup := hl.imp ne_of_lt
  have hnd' : (l.insertionSort (fun a b => H b ≤ H a)).Nodup :=
    (List.perm_insertionSort _ l).nodup_iff.mpr hnd
  have hs := List.sorted_insertionSort (fun a b => H b ≤ H a) l
  rw [List.pairwise_iff_forall_sublist]
  intro x y hxy
  have hrxy : H y ≤ H x := List.pairwise_iff_forall_sublist.mp hs hxy
  rcases eq_or_lt_of_le hrxy with heq | hlt
  · right
    refine ⟨heq.symm, ?_⟩
    have hxny : x ≠ y := by
      have h2 := hxy.nodup hnd'
      simp only [List.nodup_cons, List.mem_singleton] at h2
      exact h2.1
    have hxl : x ∈ l := by
      have := hxy.subset (by simp : x ∈ [x, y])
      rwa [List.mem_insertionSort] at this
    have hyl : y ∈ l := by
      have := hxy.subset (by simp : y ∈ [x, y])
      rwa [List.mem_insertionSort] at this
    rcases pair_sublist_or_of_mem hxl hyl hxny with hcase | hcase
    · exact List.pairwise_iff_forall_sublist.mp hl hcase
    · exfalso
      have hyx : [y, x].Sublist (l.insertionSort (fun a b => H b ≤ H a)) :=
        List.pair_sublist_insertionSort (le_of_eq heq.symm) hcase
      exact hxny (pair_sublist_antisymm hnd' hxy hyx)
  · exact Or.inl hlt

/-- The selection prefix identity used to step the entropy-greedy loop. -/
theorem rankPrefixSet_cons (current : Finset ℕ) (a : ℕ) (rest : List ℕ)
    (i : ℕ) :
    current ∪ rankPrefixSet (a :: rest) (i + 1) =
      insert a current ∪ rankPrefixSet rest i := by
  ext x
  simp only [rankPrefixSet, List.take_succ_cons, List.toFinset_cons,
    Finset.mem_union, Finset.mem_insert]
  tauto

/-- Closed form of the entropy-greedy loop: if `m` is the first number of
additions after which the selection satisfies the threshold, the loop
stops there, records the earlier selections as `EXPLORED` and the final one
as `SATISFYING`, makes it the solution and adds it to the satisfying
sets. -/
theorem entropyLoop_spec (p : ExplorationParams) :
    ∀ (l : List ℕ) (current : Finset ℕ) (st : ExplorationState) (m : ℕ),
      1 ≤ m → m ≤ l.length →
      p.sensitivity (current ∪ rankPrefixSet l m) ≤ p.sensitivityThreshold →
      (∀ i, 1 ≤ i → i < m →
        p.sensitivityThreshold <
          p.sensitivity (current ∪ rankPrefixSet l i)) →
      entropyLoop p l current st =
        { st with
          solution := some (current ∪ rankPrefixSet l m)
          satisfyingAttributeSets := st.satisfyingAttributeSets ++
            [current ∪ rankPrefixSet l m]
          exploredAttrSets := st.exploredAttrSets
            ++ (List.range (m - 1)).map (fun i =>
                mkTraceEntry p (current ∪ rankPrefixSet l (i + 1)) .explored)
            ++ [mkTraceEntry p (current ∪ rankPrefixSet l m) .satisfying] } := by
  intro l
  induction l with
  | nil =>
    intro current st m hm1 hmn hsat hbefore
    simp only [List.length_nil] at hmn
    omega
  | cons a rest ih =>
    intro current st m hm1 hmn hsat hbefore
    have h1 : current ∪ rankPrefixSet (a :: rest) 1 = insert a current := by
      ext x
      simp only [rankPrefixSet, List.take_succ_cons, List.take_zero,
        List.toFinset_cons, List.toFinset_nil, Finset.mem_union,
        Finset.mem_insert, Finset.insert_empty, Finset.mem_singleton]
      tauto
    match m, hm1 with
    | 1, _ =>
      rw [h1] at hsat
      rw [entropyLoop, if_pos (decide_eq_true hsat)]
      simp [mkTraceEntry, h1]
    | (m' + 2), _ =>
      have hne : ¬ p.sensitivity (insert a current) ≤
          p.sensitivityThreshold := by
        have hb := hbefore 1 le_rfl (by omega)
        rw [h1] at hb
        exact not_le.mpr hb
      rw [entropyLoop, if_neg (by simpa using hne)]
      rw [ih (insert a current)
        { st with exploredAttrSets := st.exploredAttrSets ++
            [mkTraceEntry p (insert a current) .explored] }
        (m' + 1) (by omega) (by simpa using hmn)
        (by rw [← rankPrefixSet_cons]; exact hsat)
        (fun i hi1 hi2 => by
          rw [← rankPrefixSet_cons]
          exact hbefore (i + 1) (by omega) (by omega))]
      have hpre : ∀ j, insert a current ∪ rankPrefixSet rest j =
          current ∪ rankPrefixSet (a :: rest) (j + 1) :=
        fun j => (rankPrefixSet_cons current a rest j).symm
      simp only [ExplorationState.mk.injEq, hpre, and_true, true_and]
      rw [show (m' + 2 - 1) = m' + 1 from rfl,
        List.range_succ_eq_map, List.map_cons, List.map_map]
      simp only [Function.comp_def, Nat.succ_eq_add_one, Nat.zero_add, hpre,
        h1, List.append_assoc, List.cons_append, List.singleton_append,
        List.nil_append]
      rfl

/-- C5: the entropy-greedy exploration ranks the candidate attributes by
single-attribute entropy descending, breaking ties by lower attribute id
first (the ranking is sorted for that lexicographic order and is a
permutation of the candidate attributes); it adds the attributes to the
selection one at a time in rank order, and for the first number `m` of
additions whose selection has sensitivity at most the threshold, that
selection becomes the solution and is appended to the satisfying sets with
a `SATISFYING` trace entry, while every earlier selection is recorded in
the trace with state `EXPLORED`. -/
theorem entropy_greedy_search (p : ExplorationParams) (H : ℕ → ℚ)
    (st : ExplorationState) (m : ℕ) (hm1 : 1 ≤ m)
    (hmn : m ≤ p.candidateAttributes.card)
    (hsat : p.sensitivity
        (rankPrefixSet (rankedAttributes p.candidateAttributes H) m)
      ≤ p.sensitivityThreshold)
    (hbefore : ∀ i, 1 ≤ i → i < m →
      p.sensitivityThreshold < p.sensitivity
        (rankPrefixSet (rankedAttributes p.candidateAttributes H) i)) :
    (rankedAttributes p.candidateAttributes H).Pairwise
      (fun a b => H b < H a ∨ (H a = H b ∧ a < b))
    ∧ (rankedAttributes p.candidateAttributes H).Perm
        (sortedIds p.candidateAttributes)
    ∧ entropySearchForSolution p H st =
      { st with
        solution := some
          (rankPrefixSet (rankedAttributes p.candidateAttributes H) m)
        satisfyingAttributeSets := st.satisfyingAttributeSets ++
          [rankPrefixSet (rankedAttributes p.candidateAttributes H) m]
        exploredAttrSets := st.exploredAttrSets
          ++ (List.range (m - 1)).map (fun i => mkTraceEntry p
              (rankPrefixSet (rankedAttributes p.candidateAttributes H)
                (i + 1)) .explored)
          ++ [mkTraceEntry p
              (rankPrefixSet (rankedAttributes p.candidateAttributes H) m)
              .satisfying] } := by
  refine ⟨?_, ?_, ?_⟩
  · rw [rankedAttributes]
    exact insertionSort_desc_pairwise H _ (sortedIds_pairwise_lt _)
  · rw [rankedAttributes]
    exact List.perm_insertionSort _ _
  · have hlen : (rankedAttributes p.candidateAttributes H).length =
        p.candidateAttributes.card := by
      rw [rankedAttributes, List.length_insertionSort, sortedIds_length]
    have h := entropyLoop_spec p (rankedAttributes p.candidateAttributes H)
      ∅ st m hm1 (by rw [hlen]; exact hmn) (by simpa using hsat)
      (fun i h1 h2 => by simpa using hbefore i h1 h2)
    rw [entropySearchForSolution, h]
    simp

/-- Witness for C5: on the two-attribute example the solution is the
two-step selection prefix. -/
theorem entropy_greedy_search_witness :
    (entropySearchForSolution exampleEntropyParams exampleEntropy
      { initialExplorationState with startTime := true }).solution
      = some (rankPrefixSet (rankedAttributes
          exampleEntropyParams.candidateAttributes exampleEntropy) 2) := by
  have h := entropy_greedy_search exampleEntropyParams exampleEntropy
    { initialExplorationState with startTime := true } 2
    (by norm_num) (by decide) (by decide)
    (fun i hi1 hi2 => by
      have hi : i = 1 := by omega
      subst hi
      decide)
  rw [h.2.2]

/-- Membership after a Python-set addition. -/
theorem mem_addToSetList {α : Type} [DecidableEq α] {l : List α} {x y : α} :
    y ∈ addToSetList l x ↔ y ∈ l ∨ y = x := by
  rw [addToSetList]
  split
  · rename_i hx
    simp only [iff_self_or]
    rintro rfl
    exact hx
  · simp

/-- Elements of the base survive a fold of Python-set additions. -/
theorem mem_foldl_addToSetList_left {α : Type} [DecidableEq α] :
    ∀ {l : List α} {base : List α} {x : α}, x ∈ base →
      x ∈ l.foldl addToSetList base := by
  intro l
  induction l with
  | nil => intro base x hx; exact hx
  | cons a l ih =>
    intro base x hx
    rw [List.foldl_cons]
    exact ih (mem_addToSetList.mpr (Or.inl hx))

/-- Added elements appear after a fold of Python-set additions. -/
theorem mem_foldl_addToSetList_right {α : Type} [DecidableEq α] :
    ∀ {l : List α} {base : List α} {x : α}, x ∈ l →
      x ∈ l.foldl addToSetList base := by
  intro l
  induction l with
  | nil => intro base x hx; exact absurd hx (by simp)
  | cons a l ih =>
    intro base x hx
    rw [List.foldl_cons]
    rcases List.mem_cons.mp hx with rfl | hxl
    · exact mem_foldl_addToSetList_left (mem_addToSetList.mpr (Or.inr rfl))
    · exact ih hxl

/-- What membership in the expansion set `E` guarantees: the new attribute
set extends a set to expand by one candidate attribute, is not a superset
of a satisfying attribute set, and (when the pruning methods are used) is
not a superset of a set whose supersets are ignored. -/
theorem mem_expandAttributeSets {te : List (Finset ℕ)} {cand : Finset ℕ}
    {sat ign : List (Finset ℕ)} {pr : Bool} {Y : Finset ℕ}
    (hY : Y ∈ expandAttributeSets te cand sat ign pr) :
    (∃ X ∈ te, ∃ a ∈ cand, a ∉ X ∧ Y = insert a X)
    ∧ (∀ T ∈ sat, ¬ T ⊆ Y)
    ∧ (pr = true → ∀ I ∈ ign, ¬ I ⊆ Y) := by
  rw [expandAttributeSets, List.mem_dedup, List.mem_filter] at hY
  obtain ⟨hmem, hkeep⟩ := hY
  rw [List.mem_flatMap] at hmem
  obtain ⟨X, hX, hYX⟩ := hmem
  rw [expandOne] at hYX
  simp only [List.mem_map, List.mem_filter, mem_sortedIds,
    decide_eq_true_eq] at hYX
  obtain ⟨a, ⟨hac, hax⟩, rfl⟩ := hYX
  rw [keepExpanded] at hkeep
  simp only [Bool.and_eq_true, Bool.not_eq_true', List.any_eq_false,
    decide_eq_false_iff_not, Bool.and_eq_false_iff,
    decide_eq_true_eq] at hkeep
  refine ⟨⟨X, hX, a, hac, hax, rfl⟩, hkeep.1, ?_⟩
  intro hpr I hI
  rcases hkeep.2 with h | h
  · rw [hpr] at h
    exact absurd h (by simp)
  · exact h I hI

/-- The effect of exploring one attribute set: one trace entry for `Y` is
appended, with `Y` registered in the local ignored-supersets set when the
entry is `SATISFYING` or `PRUNED` (the latter only occurring with the
pruning methods on); the local ignored set only grows by `Y`; the
efficiencies only grow by a pair keyed by `Y`; and the solution storage
invariant is preserved relative to any base list of previously found
satisfying sets. -/
theorem exploreOne_spec (p : FPSelectParams) (maxCost : ℚ)
    (acc : ExploreAcc) (Y : Finset ℕ) (base : List (Finset ℕ))
    (hsol : SolutionInv p.usabilityCost acc.solution acc.minCost
      (base ++ acc.localSatisfying)) :
    ∃ st : ExplorState,
      (exploreOne p maxCost acc Y).trace =
        acc.trace ++ [mkTraceEntry p.toExplorationParams Y st]
      ∧ ((st = ExplorState.satisfying ∨ st = ExplorState.pruned) →
          Y ∈ (exploreOne p maxCost acc Y).localIgnored)
      ∧ (st = ExplorState.pruned → p.pruning = true)
      ∧ (∀ x ∈ acc.localIgnored,
          x ∈ (exploreOne p maxCost acc Y).localIgnored)
      ∧ (∀ x ∈ (exploreOne p maxCost acc Y).localIgnored,
          x ∈ acc.localIgnored ∨ x = Y)
      ∧ (∀ q ∈ (exploreOne p maxCost acc Y).efficiencies,
          q ∈ acc.efficiencies ∨ q.1 = Y)
      ∧ SolutionInv p.usabilityCost (exploreOne p maxCost acc Y).solution
          (exploreOne p maxCost acc Y).minCost
          (base ++ (exploreOne p maxCost acc Y).localSatisfying) := by
  rw [exploreOne]
  by_cases hs : p.sensitivity Y ≤ p.sensitivityThreshold
  · rw [if_pos (decide_eq_true hs)]
    cases hlt : ltMinCost (p.usabilityCost Y) acc.minCost
    · rw [if_neg Bool.false_ne_true]
      refine ⟨ExplorState.satisfying, rfl,
        fun _ => mem_addToSetList.mpr (Or.inr rfl),
        fun h => absurd h (by simp),
        fun x hx => mem_addToSetList.mpr (Or.inl hx),
        fun x hx => mem_addToSetList.mp hx,
        fun q hq => Or.inl hq, ?_, ?_⟩
      · intro hnone
        obtain ⟨hmc, _⟩ := hsol.1 hnone
        rw [hmc, ltMinCost] at hlt
        exact absurd hlt (by simp)
      · intro y hy
        obtain ⟨hmem, hmc, hmin⟩ := hsol.2 y hy
        refine ⟨?_, hmc, ?_⟩
        · rcases List.mem_append.mp hmem with h | h
          · exact List.mem_append.mpr (Or.inl h)
          · exact List.mem_append.mpr
              (Or.inr (mem_addToSetList.mpr (Or.inl h)))
        · intro z hz
          rcases List.mem_append.mp hz with h | h
          · exact hmin z (List.mem_append.mpr (Or.inl h))
          · rcases mem_addToSetList.mp h with h' | rfl
            · exact hmin z (List.mem_append.mpr (Or.inr h'))
            · rw [hmc, ltMinCost] at hlt
              simpa using hlt
    · rw [if_pos rfl]
      refine ⟨ExplorState.satisfying, rfl,
        fun _ => mem_addToSetList.mpr (Or.inr rfl),
        fun h => absurd h (by simp),
        fun x hx => mem_addToSetList.mpr (Or.inl hx),
        fun x hx => mem_addToSetList.mp hx,
        fun q hq => Or.inl hq, ?_, ?_⟩
      · intro hnone; exact absurd hnone (by simp)
      · intro y hy
        have hyY : y = Y := by
          have h' : Y = y := by simpa using hy
          exact h'.symm
        rw [hyY]
        refine ⟨List.mem_append.mpr
          (Or.inr (mem_addToSetList.mpr (Or.inr rfl))), rfl, ?_⟩
        intro z hz
        rcases hy0 : acc.solution with _ | y₀
        · obtain ⟨_, hsats⟩ := hsol.1 hy0
          rw [List.append_eq_nil] at hsats
          rcases List.mem_append.mp hz with h | h
          · exact absurd h (by rw [hsats.1]; simp)
          · rcases mem_addToSetList.mp h with h' | rfl
            · exact absurd h' (by rw [hsats.2]; simp)
            · exact le_rfl
        · obtain ⟨_, hmc, hmin⟩ := hsol.2 y₀ hy0
          rw [hmc, ltMinCost] at hlt
          have hYy : p.usabilityCost Y < p.usabilityCost y₀ := by
            simpa using hlt
          rcases List.mem_append.mp hz with h | h
          · exact le_of_lt (lt_of_lt_of_le hYy
              (hmin z (List.mem_append.mpr (Or.inl h))))
          · rcases mem_addToSetList.mp h with h' | rfl
            · exact le_of_lt (lt_of_lt_of_le hYy
                (hmin z (List.mem_append.mpr (Or.inr h'))))
            · exact le_rfl
  · rw [if_neg (by simpa using hs)]
    cases hlt : ltMinCost (p.usabilityCost Y) acc.minCost
    · rw [if_neg Bool.false_ne_true]
      cases hpr : p.pruning
      · rw [if_neg Bool.false_ne_true]
        exact ⟨ExplorState.explored, rfl, fun h => absurd h (by simp),
          fun h => absurd h (by simp), fun x hx => hx,
          fun x hx => Or.inl hx, fun q hq => Or.inl hq, hsol⟩
      · rw [if_pos rfl]
        exact ⟨ExplorState.pruned, rfl,
          fun _ => mem_addToSetList.mpr (Or.inr rfl), fun _ => rfl,
          fun x hx => mem_addToSetList.mpr (Or.inl hx),
          fun x hx => mem_addToSetList.mp hx,
          fun q hq => Or.inl hq, hsol⟩
    · rw [if_pos rfl]
      exact ⟨ExplorState.explored, rfl, fun h => absurd h (by simp),
        fun h => absurd h (by simp), fun x hx => hx,
        fun x hx => Or.inl hx,
        fun q hq => (List.mem_append.mp hq).imp id
          (fun h => by simpa using congrArg Prod.fst (List.mem_singleton.mp h)),
        hsol⟩

/-- The effect of exploring a level: one trace entry per explored attribute
set is appended, in order; `SATISFYING` and `PRUNED` entries are registered
in the local ignored-supersets set; the local ignored set grows only by
explored sets; the efficiencies grow only by pairs keyed by explored sets;
and the solution storage invariant is preserved. -/
theorem exploreAttributeSets_spec (p : FPSelectParams) (maxCost : ℚ) :
    ∀ (sets : List (Finset ℕ)) (acc : ExploreAcc) (base : List (Finset ℕ)),
      SolutionInv p.usabilityCost acc.solution acc.minCost
        (base ++ acc.localSatisfying) →
      ∃ new : List TraceEntry,
        (exploreAttributeSets p maxCost sets acc).trace = acc.trace ++ new
        ∧ new.map (fun e => e.attributes) = sets
        ∧ (∀ e ∈ new,
            (e.state = ExplorState.satisfying ∨
              e.state = ExplorState.pruned) →
            e.attributes ∈
              (exploreAttributeSets p maxCost sets acc).localIgnored)
        ∧ (∀ x ∈ acc.localIgnored,
            x ∈ (exploreAttributeSets p maxCost sets acc).localIgnored)
        ∧ (∀ x ∈ (exploreAttributeSets p maxCost sets acc).localIgnored,
            x ∈ acc.localIgnored ∨ x ∈ sets)
        ∧ (∀ q ∈ (exploreAttributeSets p maxCost sets acc).efficiencies,
            q ∈ acc.efficiencies ∨ q.1 ∈ sets)
        ∧ SolutionInv p.usabilityCost
            (exploreAttributeSets p maxCost sets acc).solution
            (exploreAttributeSets p maxCost sets acc).minCost
            (base ++
              (exploreAttributeSets p maxCost sets acc).localSatisfying) := by
  intro sets
  induction sets with
  | nil =>
    intro acc base hsol
    exact ⟨[], by simp [exploreAttributeSets], rfl, by simp, fun x hx => hx,
      fun x hx => Or.inl hx, fun q hq => Or.inl hq, hsol⟩
  | cons Y rest ih =>
    intro acc base hsol
    obtain ⟨st, h1, h2, _, h4, h5, h6, h7⟩ :=
      exploreOne_spec p maxCost acc Y base hsol
    obtain ⟨new', g1, g2, g3, g4, g5, g6, g7⟩ :=
      ih (exploreOne p maxCost acc Y) base h7
    have hstep : exploreAttributeSets p maxCost (Y :: rest) acc =
        exploreAttributeSets p maxCost rest (exploreOne p maxCost acc Y) :=
      rfl
    refine ⟨mkTraceEntry p.toExplorationParams Y st :: new', ?_, ?_, ?_,
      ?_, ?_, ?_, ?_⟩
    · rw [hstep, g1, h1, List.append_assoc, List.singleton_append]
    · rw [List.map_cons, g2, mkTraceEntry]
    · intro e he hst
      rw [hstep]
      rcases List.mem_cons.mp he with rfl | he'
      · exact g4 Y (h2 hst)
      · exact g3 e he' hst
    · intro x hx
      rw [hstep]
      exact g4 x (h4 x hx)
    · intro x hx
      rw [hstep] at hx
      rcases g5 x hx with h | h
      · rcases h5 x h with h' | rfl
        · exact Or.inl h'
        · exact Or.inr (List.mem_cons.mpr (Or.inl rfl))
      · exact Or.inr (List.mem_cons.mpr (Or.inr h))
    · intro q hq
      rw [hstep] at hq
      rcases g6 q hq with h | h
      · rcases h6 q h with h' | h'
        · exact Or.inl h'
        · exact Or.inr (List.mem_cons.mpr (Or.inl h'))
      · exact Or.inr (List.mem_cons.mpr (Or.inr h))
    · rw [hstep]
      exact g7

/-- One FPSelect level iteration preserves the solution-storage
invariant. -/
theorem fpselectStep_solution (p : FPSelectParams) (maxCost : ℚ)
    (st : FPSelectState) (hinv : FPSolutionInv p st) :
    FPSolutionInv p (fpselectStep p maxCost st) := by
  obtain ⟨hstart, rest, hsats, hsol⟩ := hinv
  have hsol' : SolutionInv p.usabilityCost st.exploration.solution st.minCost
      (rest ++ ([] : List (Finset ℕ))) := by simpa using hsol
  obtain ⟨new, g1, g2, g3, g4, g5, g6, g7⟩ :=
    exploreAttributeSets_spec p maxCost
      (expandAttributeSets st.attributeSetsToExpand p.candidateAttributes
        st.exploration.satisfyingAttributeSets
        st.attributeSetsIgnoredSupersets p.pruning)
      ⟨[], [], [], st.exploration.solution, st.minCost,
        st.exploration.exploredAttrSets⟩ rest hsol'
  refine ⟨hstart, rest ++ (exploreAttributeSets p maxCost
    (expandAttributeSets st.attributeSetsToExpand p.candidateAttributes
      st.exploration.satisfyingAttributeSets
      st.attributeSetsIgnoredSupersets p.pruning)
    ⟨[], [], [], st.exploration.solution, st.minCost,
      st.exploration.exploredAttrSets⟩).localSatisfying, ?_, g7⟩
  show st.exploration.satisfyingAttributeSets ++ _ = _
  rw [hsats]
  rfl

/-- One FPSelect level iteration preserves the pruning-safety invariant
when the pruning methods are used. -/
theorem fpselectStep_pruneSafe (p : FPSelectParams) (maxCost : ℚ)
    (st : FPSelectState) (hpr : p.pruning = true)
    (hps : PruneSafeInv p st) (hsi : FPSolutionInv p st) :
    PruneSafeInv p (fpselectStep p maxCost st) := by
  obtain ⟨hsub, hignreg, ⟨n, hexp⟩, hpw⟩ := hps
  obtain ⟨hstart, rest, hsats, hsol⟩ := hsi
  have hEfacts : ∀ Y ∈ expandAttributeSets st.attributeSetsToExpand
      p.candidateAttributes st.exploration.satisfyingAttributeSets
      st.attributeSetsIgnoredSupersets p.pruning,
      Y ⊆ p.candidateAttributes ∧ Y.card = n + 1
      ∧ (∀ I ∈ st.attributeSetsIgnoredSupersets, ¬ I ⊆ Y) := by
    intro Y hY
    obtain ⟨⟨X, hX, a, hac, hax, rfl⟩, hsat', hign'⟩ :=
      mem_expandAttributeSets hY
    obtain ⟨hXc, hXn⟩ := hexp X hX
    exact ⟨Finset.insert_subset hac hXc,
      by rw [Finset.card_insert_of_not_mem hax, hXn], hign' hpr⟩
  have hsol' : SolutionInv p.usabilityCost st.exploration.solution st.minCost
      (rest ++ ([] : List (Finset ℕ))) := by simpa using hsol
  obtain ⟨new, g1, g2, g3, g4, g5, g6, g7⟩ :=
    exploreAttributeSets_spec p maxCost
      (expandAttributeSets st.attributeSetsToExpand p.candidateAttributes
        st.exploration.satisfyingAttributeSets
        st.attributeSetsIgnoredSupersets p.pruning)
      ⟨[], [], [], st.exploration.solution, st.minCost,
        st.exploration.exploredAttrSets⟩ rest hsol'
  have hmemE : ∀ e ∈ new, e.attributes ∈ expandAttributeSets
      st.attributeSetsToExpand p.candidateAttributes
      st.exploration.satisfyingAttributeSets
      st.attributeSetsIgnoredSupersets p.pruning := by
    intro e he
    rw [← g2]
    exact List.mem_map_of_mem _ he
  have htr : (fpselectStep p maxCost st).exploration.exploredAttrSets =
      st.exploration.exploredAttrSets ++ new := g1
  refine ⟨?_, ?_, ?_, ?_⟩
  · rw [htr]
    intro e he
    rcases List.mem_append.mp he with h | h
    · exact hsub e h
    · exact (hEfacts _ (hmemE e h)).1
  · rw [htr]
    intro e he hst
    rcases List.mem_append.mp he with h | h
    · rcases hignreg e h hst with h' | h'
      · exact Or.inl (mem_foldl_addToSetList_left h')
      · exact Or.inr h'
    · exact Or.inl (mem_foldl_addToSetList_right (g3 e h hst))
  · refine ⟨n + 1, ?_⟩
    intro X' hX'
    obtain ⟨q, hq, rfl⟩ := List.mem_map.mp hX'
    have hq1 : q ∈ (exploreAttributeSets p maxCost
        (expandAttributeSets st.attributeSetsToExpand p.candidateAttributes
          st.exploration.satisfyingAttributeSets
          st.attributeSetsIgnoredSupersets p.pruning)
        ⟨[], [], [], st.exploration.solution, st.minCost,
          st.exploration.exploredAttrSets⟩).efficiencies := by
      have := List.mem_of_mem_take hq
      rwa [List.mem_insertionSort] at this
    rcases g6 q hq1 with h | h
    · exact absurd h (by simp)
    · exact ⟨(hEfacts _ h).1, (hEfacts _ h).2.1⟩
  · rw [htr, List.pairwise_append]
    refine ⟨hpw, ?_, ?_⟩
    · rw [List.pairwise_iff_forall_sublist]
      intro e₁ e₂ hsub12
      have he₁ : e₁ ∈ new := hsub12.subset (by simp)
      have he₂ : e₂ ∈ new := hsub12.subset (by simp)
      intro _ hss
      have hc := Finset.card_lt_card hss
      rw [(hEfacts _ (hmemE e₁ he₁)).2.1,
        (hEfacts _ (hmemE e₂ he₂)).2.1] at hc
      omega
    · intro e₁ he₁ e₂ he₂ hst
      rcases hignreg e₁ he₁ hst with h | h
      · intro hss
        exact (hEfacts _ (hmemE e₂ he₂)).2.2 e₁.attributes h hss.subset
      · intro hss
        have hc := Finset.card_lt_card hss
        have hle := Finset.card_le_card (hEfacts _ (hmemE e₂ he₂)).1
        rw [h] at hc
        omega

/-- The FPSelect `while` loop preserves the solution-storage invariant,
for every amount of fuel. -/
theorem fpselectLoop_solution (p : FPSelectParams) (maxCost : ℚ)
    (fuel : ℕ) :
    ∀ st : FPSelectState, FPSolutionInv p st →
      FPSolutionInv p (fpselectLoop p maxCost fuel st) := by
  induction fuel with
  | zero => intro st h; exact h
  | succ fuel ih =>
    intro st h
    rw [fpselectLoop]
    split
    · exact h
    · exact ih _ (fpselectStep_solution p maxCost st h)

/-- The FPSelect `while` loop preserves the pruning-safety invariant when
the pruning methods are used, for every amount of fuel. -/
theorem fpselectLoop_pruneSafe (p : FPSelectParams) (maxCost : ℚ)
    (hpr : p.pruning = true) (fuel : ℕ) :
    ∀ st : FPSelectState, PruneSafeInv p st → FPSolutionInv p st →
      PruneSafeInv p (fpselectLoop p maxCost fuel st) := by
  induction fuel with
  | zero => intro st h _; exact h
  | succ fuel ih =>
    intro st h hsi
    rw [fpselectLoop]
    split
    · exact h
    · exact ih _ (fpselectStep_pruneSafe p maxCost st hpr h hsi)
        (fpselectStep_solution p maxCost st hsi)

/-- The state right after a successful feasibility check satisfies both
FPSelect loop invariants. -/
theorem fpselectInit_invariants (p : FPSelectParams)
    (hS : p.sensitivity p.candidateAttributes ≤ p.sensitivityThreshold) :
    PruneSafeInv p (fpselectInitState
      (isSensitivityThresholdReachable p.toExplorationParams
        { initialExplorationState with startTime := true }).1)
    ∧ FPSolutionInv p (fpselectInitState
      (isSensitivityThresholdReachable p.toExplorationParams
        { initialExplorationState with startTime := true }).1) := by
  have hTr : (isSensitivityThresholdReachable p.toExplorationParams
      { initialExplorationState with startTime := true }).1.exploredAttrSets
      = [{ attributes := p.candidateAttributes
           sensitivity := p.sensitivity p.candidateAttributes
           usabilityCost := p.usabilityCost p.candidateAttributes
           costExplanation := p.costExplanation p.candidateAttributes
           state := .satisfying }] := by
    simp [isSensitivityThresholdReachable, hS, initialExplorationState]
  have hSat : (isSensitivityThresholdReachable p.toExplorationParams
      { initialExplorationState with
        startTime := true }).1.satisfyingAttributeSets
      = [p.candidateAttributes] := by
    simp [isSensitivityThresholdReachable, hS, initialExplorationState]
  have hSol : (isSensitivityThresholdReachable p.toExplorationParams
      { initialExplorationState with startTime := true }).1.solution
      = none := by
    simp [isSensitivityThresholdReachable, hS, initialExplorationState]
  have hStart : (isSensitivityThresholdReachable p.toExplorationParams
      { initialExplorationState with startTime := true }).1.startTime
      = true := by
    simp [isSensitivityThresholdReachable, hS, initialExplorationState]
  constructor
  · refine ⟨?_, ?_, ⟨0, ?_⟩, ?_⟩
    · intro e he
      rw [show (fpselectInitState
          (isSensitivityThresholdReachable p.toExplorationParams
            { initialExplorationState with
              startTime := true }).1).exploration.exploredAttrSets =
          (isSensitivityThresholdReachable p.toExplorationParams
            { initialExplorationState with
              startTime := true }).1.exploredAttrSets from rfl, hTr] at he
      rw [List.mem_singleton.mp he]
    · intro e he _
      rw [show (fpselectInitState
          (isSensitivityThresholdReachable p.toExplorationParams
            { initialExplorationState with
              startTime := true }).1).exploration.exploredAttrSets =
          (isSensitivityThresholdReachable p.toExplorationParams
            { initialExplorationState with
              startTime := true }).1.exploredAttrSets from rfl, hTr] at he
      exact Or.inr (by rw [List.mem_singleton.mp he])
    · intro X hX
      rw [show (fpselectInitState
          (isSensitivityThresholdReachable p.toExplorationParams
            { initialExplorationState with
              startTime := true }).1).attributeSetsToExpand =
          [∅] from rfl] at hX
      rw [List.mem_singleton.mp hX]
      exact ⟨Finset.empty_subset _, Finset.card_empty⟩
    · rw [show (fpselectInitState
          (isSensitivityThresholdReachable p.toExplorationParams
            { initialExplorationState with
              startTime := true }).1).exploration.exploredAttrSets =
          (isSensitivityThresholdReachable p.toExplorationParams
            { initialExplorationState with
              startTime := true }).1.exploredAttrSets from rfl, hTr]
      simp [pruneSafeRel]
  · refine ⟨hStart, [], ?_, ?_⟩
    · rw [show (fpselectInitState
          (isSensitivityThresholdReachable p.toExplorationParams
            { initialExplorationState with
              startTime := true }).1).exploration.satisfyingAttributeSets =
          (isSensitivityThresholdReachable p.toExplorationParams
            { initialExplorationState with
              startTime := true }).1.satisfyingAttributeSets from rfl, hSat]
    · refine ⟨fun _ => ⟨rfl, rfl⟩, fun y hy => ?_⟩
      rw [show (fpselectInitState
          (isSensitivityThresholdReachable p.toExplorationParams
            { initialExplorationState with
              startTime := true }).1).exploration.solution =
          (isSensitivityThresholdReachable p.toExplorationParams
            { initialExplorationState with
              startTime := true }).1.solution from rfl, hSol] at hy
      exact absurd hy (by simp)

/-- C6: in an FPSelect run with the pruning methods used, the exploration
trace satisfies the pruning-safety relation pairwise: for every trace entry
classified `SATISFYING` or `PRUNED` — exactly the attribute sets added to
the ignored-supersets set `I` during the run — no strict superset of its
attribute set is evaluated and recorded in the trace at any later point of
the run, for every amount of loop fuel. -/
theorem fpselect_pruning_safety (p : FPSelectParams) (fuel : ℕ)
    (hpr : p.pruning = true) :
    ((fpselectRun p fuel).1.exploration.exploredAttrSets).Pairwise
      pruneSafeRel := by
  by_cases hS : p.sensitivity p.candidateAttributes ≤ p.sensitivityThreshold
  · have hc : (isSensitivityThresholdReachable p.toExplorationParams
        { initialExplorationState with startTime := true }).2 = true :=
      decide_eq_true hS
    have hrun : (fpselectRun p fuel).1.exploration.exploredAttrSets =
        (fpselectLoop p (p.usabilityCost p.candidateAttributes) fuel
          (fpselectInitState
            (isSensitivityThresholdReachable p.toExplorationParams
              { initialExplorationState with
                startTime := true }).1)).exploration.exploredAttrSets := by
      simp only [fpselectRun, hc, if_true]
    rw [hrun]
    obtain ⟨hps0, hsi0⟩ := fpselectInit_invariants p hS
    exact (fpselectLoop_pruneSafe p (p.usabilityCost p.candidateAttributes)
      hpr fuel _ hps0 hsi0).2.2.2
  · have hc : (isSensitivityThresholdReachable p.toExplorationParams
        { initialExplorationState with startTime := true }).2 = false :=
      decide_eq_false hS
    have hrun : (fpselectRun p fuel).1.exploration.exploredAttrSets =
        (fpselectInitState
          (isSensitivityThresholdReachable p.toExplorationParams
            { initialExplorationState with
              startTime := true }).1).exploration.exploredAttrSets := by
      simp only [fpselectRun, hc, Bool.false_eq_true, if_false]
    rw [hrun]
    have hTr : (isSensitivityThresholdReachable p.toExplorationParams
        { initialExplorationState with startTime := true }).1.exploredAttrSets
        = [{ attributes := p.candidateAttributes
             sensitivity := p.sensitivity p.candidateAttributes
             usabilityCost := p.usabilityCost p.candidateAttributes
             costExplanation := p.costExplanation p.candidateAttributes
             state := .explored }] := by
      simp [isSensitivityThresholdReachable, hS, initialExplorationState]
    rw [show (fpselectInitState
        (isSensitivityThresholdReachable p.toExplorationParams
          { initialExplorationState with
            startTime := true }).1).exploration.exploredAttrSets =
        (isSensitivityThresholdReachable p.toExplorationParams
          { initialExplorationState with
            startTime := true }).1.exploredAttrSets from rfl, hTr]
    simp [pruneSafeRel]

/-- Witness for C6: the run on the FPSelect paper lattice (two explored
paths, pruning on) produces a pruning-safe trace. -/
theorem fpselect_pruning_safety_witness :
    examplePaperFPSelectParams.pruning = true
    ∧ ((fpselectRun examplePaperFPSelectParams
        4).1.exploration.exploredAttrSets).Pairwise pruneSafeRel :=
  ⟨rfl, fpselect_pruning_safety examplePaperFPSelectParams 4 rfl⟩

/-- C1 (amended): for every FPSelect run whose feasibility check succeeds
and during whose level explorations at least one satisfying attribute set
is found (the satisfying sets beyond the initial candidate-set entry of
the feasibility check are nonempty), the stored solution is set,
`get_solution` returns it, it is one of the satisfying sets entered during
the level explorations, and its usability cost is the minimum cost among
those sets.  (The minimum is over the level-entered satisfying sets only:
the candidate-set entry of the feasibility check is never compared, and
when no level set satisfies the threshold the solution stays unset and
`get_solution` returns the empty set, which was never entered into the
satisfying sets.) -/
theorem fpselect_solution_minimal (p : FPSelectParams) (fuel : ℕ)
    (hS : p.sensitivity p.candidateAttributes ≤ p.sensitivityThreshold)
    (hne : ((fpselectRun p
        fuel).1.exploration.satisfyingAttributeSets).drop 1 ≠ []) :
    ∃ sol,
      (fpselectRun p fuel).1.exploration.solution = some sol
      ∧ getSolution (fpselectRun p fuel).1.exploration = Except.ok sol
      ∧ sol ∈ ((fpselectRun p
          fuel).1.exploration.satisfyingAttributeSets).drop 1
      ∧ ∀ z ∈ ((fpselectRun p
          fuel).1.exploration.satisfyingAttributeSets).drop 1,
          p.usabilityCost sol ≤ p.usabilityCost z := by
  have hc : (isSensitivityThresholdReachable p.toExplorationParams
      { initialExplorationState with startTime := true }).2 = true :=
    decide_eq_true hS
  have hrunstate : (fpselectRun p fuel).1.exploration =
      { (fpselectLoop p (p.usabilityCost p.candidateAttributes) fuel
          (fpselectInitState
            (isSensitivityThresholdReachable p.toExplorationParams
              { initialExplorationState with
                startTime := true }).1)).exploration with
        executionTime := some () } := by
    simp only [fpselectRun, hc, if_true]
  obtain ⟨hstartL, rest, hsats, hsolinv⟩ :=
    fpselectLoop_solution p (p.usabilityCost p.candidateAttributes) fuel _
      (fpselectInit_invariants p hS).2
  have hsat : (fpselectRun p fuel).1.exploration.satisfyingAttributeSets =
      p.candidateAttributes :: rest := by
    rw [hrunstate]
    exact hsats
  have hst : (fpselectRun p fuel).1.exploration.startTime = true := by
    rw [hrunstate]
    exact hstartL
  have hsolrun : (fpselectRun p fuel).1.exploration.solution =
      (fpselectLoop p (p.usabilityCost p.candidateAttributes) fuel
        (fpselectInitState
          (isSensitivityThresholdReachable p.toExplorationParams
            { initialExplorationState with
              startTime := true }).1)).exploration.solution := by
    rw [hrunstate]
  have hne' : rest ≠ [] := by
    rw [hsat] at hne
    simpa using hne
  rw [SolutionInv] at hsolinv
  obtain ⟨hnonecase, hsomecase⟩ := hsolinv
  cases hsv : (fpselectLoop p (p.usabilityCost p.candidateAttributes) fuel
      (fpselectInitState
        (isSensitivityThresholdReachable p.toExplorationParams
          { initialExplorationState with
            startTime := true }).1)).exploration.solution with
  | none => exact absurd (hnonecase hsv).2 hne'
  | some y =>
    obtain ⟨hymem, _, hyle⟩ := hsomecase y hsv
    have hget : getSolution (fpselectRun p fuel).1.exploration =
        Except.ok
          (((fpselectRun p fuel).1.exploration.solution).getD ∅) := by
      simp [getSolution, checkExplorationState, hst, hsat]
    refine ⟨y, ?_, ?_, ?_, ?_⟩
    · rw [hsolrun]
      exact hsv
    · rw [hget, hsolrun, hsv]
      rfl
    · rw [hsat]
      simpa using hymem
    · intro z hz
      rw [hsat] at hz
      exact hyle z (by simpa using hz)

/-- Witness for C1: on the two-attribute exploration where both singletons
satisfy the threshold, the run finds level satisfying sets, the solution
is one of them and has the minimum cost among them. -/
theorem fpselect_solution_minimal_witness :
    (exampleTwoSatFPSelectParams.sensitivity
        exampleTwoSatFPSelectParams.candidateAttributes ≤
      exampleTwoSatFPSelectParams.sensitivityThreshold)
    ∧ ((fpselectRun exampleTwoSatFPSelectParams
        3).1.exploration.satisfyingAttributeSets).drop 1 ≠ []
    ∧ ∃ sol,
      (fpselectRun exampleTwoSatFPSelectParams
        3).1.exploration.solution = some sol
      ∧ getSolution (fpselectRun exampleTwoSatFPSelectParams
          3).1.exploration = Except.ok sol
      ∧ sol ∈ ((fpselectRun exampleTwoSatFPSelectParams
          3).1.exploration.satisfyingAttributeSets).drop 1
      ∧ ∀ z ∈ ((fpselectRun exampleTwoSatFPSelectParams
          3).1.exploration.satisfyingAttributeSets).drop 1,
          exampleTwoSatFPSelectParams.usabilityCost sol ≤
            exampleTwoSatFPSelectParams.usabilityCost z :=
  ⟨by decide, by decide,
    fpselect_solution_minimal exampleTwoSatFPSelectParams 3 (by decide)
      (by decide)⟩

/-- Counterexample for C1 as stated: on a single-attribute exploration
where the full candidate set `{1}` satisfies the threshold, the expansion
excludes `{1}` (a superset of a satisfying set), no level set is ever
explored, the run completes with the solution storage unset, and
`get_solution` returns the empty attribute set (`AttributeSet(None)`),
which was never entered into the satisfying sets. -/
theorem fpselect_solution_not_in_satisfying :
    (fpselectRun exampleSingletonFPSelectParams
      2).1.exploration.solution = none
    ∧ getSolution (fpselectRun exampleSingletonFPSelectParams
        2).1.exploration = Except.ok ∅
    ∧ (fpselectRun exampleSingletonFPSelectParams
        2).1.exploration.satisfyingAttributeSets = [{1}]
    ∧ ∅ ∉ (fpselectRun exampleSingletonFPSelectParams
        2).1.exploration.satisfyingAttributeSets :=
  ⟨by decide, by rfl, by decide, by decide⟩

/-- Splitting a sum of pointwise sums of two functions. -/
theorem sum_map_add_split {α : Type} (f g : α → ℕ) :
    ∀ vs : List α,
      (vs.map (fun v => f v + g v)).sum = (vs.map f).sum + (vs.map g).sum := by
  intro vs
  induction vs with
  | nil => simp
  | cons v vs ih =>
    rw [List.map_cons, List.sum_cons, ih, List.map_cons, List.sum_cons,
      List.map_cons, List.sum_cons]
    omega

/-- Over a duplicate-free list, the sum of the indicators of equality with
`a` is the indicator of membership of `a`. -/
theorem sum_map_ite_eq {α : Type} [DecidableEq α] (a : α) :
    ∀ vs : List α, vs.Nodup →
      (vs.map (fun w => if a = w then 1 else 0)).sum
        = (if a ∈ vs then 1 else 0) := by
  intro vs
  induction vs with
  | nil => intro _; simp
  | cons v vs ih =>
    intro h
    rw [List.nodup_cons] at h
    by_cases hav : a = v
    · subst hav
      have hz : (vs.map (fun w => if a = w then 1 else 0)).sum = 0 := by
        apply List.sum_eq_zero
        intro x hx
        obtain ⟨w, hw, rfl⟩ := List.mem_map.mp hx
        rw [if_neg]
        intro he
        exact h.1 (he ▸ hw)
      simp [hz]
    · rw [List.map_cons, List.sum_cons, if_neg hav, ih h.2]
      simp [List.mem_cons, hav]

/-- The sum of the occurrence counts of the members of a duplicate-free
list of values is the number of rows whose value is one of them. -/
theorem sum_counts_eq_countP {α : Type} [DecidableEq α] (l : List α) :
    ∀ vs : List α, vs.Nodup →
      (vs.map (fun v => l.count v)).sum
        = l.countP (fun x => decide (x ∈ vs)) := by
  induction l with
  | nil =>
    intro vs _
    rw [List.countP_nil]
    apply List.sum_eq_zero
    intro x hx
    obtain ⟨v, _, rfl⟩ := List.mem_map.mp hx
    exact List.count_nil v
  | cons a l ih =>
    intro vs h
    have h1 : vs.map (fun v => (a :: l).count v)
        = vs.map (fun v => l.count v + if a = v then 1 else 0) := by
      apply List.map_congr_left
      intro v _
      rw [List.count_cons]
      by_cases hv : a = v
      · simp [hv]
      · simp [hv]
    rw [h1, sum_map_add_split, ih vs h, sum_map_ite_eq a vs h,
      List.countP_cons]
    simp

/-- Any sub-multiset of at most `k` elements of a descending list is
dominated by the first `k` elements of the list. -/
theorem sum_le_sum_take :
    ∀ s : List ℕ, s.Pairwise (fun a b => b ≤ a) →
      ∀ (k : ℕ) (t : Multiset ℕ), t ≤ ↑s → Multiset.card t ≤ k →
        t.sum ≤ (s.take k).sum := by
  intro s
  induction s with
  | nil =>
    intro _ k t ht _
    rw [show ((↑([] : List ℕ)) : Multiset ℕ) = 0 from rfl] at ht
    rw [Multiset.le_zero.mp ht]
    simp
  | cons a s ih =>
    intro hs k t ht hcard
    rw [List.pairwise_cons] at hs
    obtain ⟨hhead, htail⟩ := hs
    by_cases hat : a ∈ t
    · cases k with
      | zero =>
        rw [Multiset.card_eq_zero.mp (Nat.le_zero.mp hcard)] at hat
        exact absurd hat (Multiset.not_mem_zero a)
      | succ k =>
        have ht' : t.erase a ≤ ↑s := by
          have h := Multiset.erase_le_erase a ht
          rwa [show ((↑(a :: s) : Multiset ℕ).erase a) = ↑s from by
            rw [← Multiset.cons_coe, Multiset.erase_cons_head]] at h
        have hc' : Multiset.card (t.erase a) ≤ k := by
          rw [Multiset.card_erase_of_mem hat, Nat.pred_eq_sub_one]
          omega
        have hsum := ih htail k (t.erase a) ht' hc'
        rw [(Multiset.cons_erase hat).symm, Multiset.sum_cons,
          List.take_succ_cons, List.sum_cons]
        exact Nat.add_le_add_left hsum a
    · have ht' : t ≤ ↑s := by
        rw [Multiset.le_iff_count]
        intro b
        by_cases hb : b = a
        · subst hb
          rw [Multiset.count_eq_zero.mpr hat]
          exact Nat.zero_le _
        · have h := Multiset.le_iff_count.mp ht b
          rwa [← Multiset.cons_coe, Multiset.count_cons_of_ne hb] at h
      refine le_trans (ih htail k t ht' hcard) ?_
      cases k with
      | zero => simp
      | succ k =>
        rw [List.take_succ_cons, List.sum_cons, List.take_succ,
          List.sum_append]
        have hx : (s[k]?).toList.sum ≤ a := by
          cases hg : s[k]? with
          | none => simp
          | some x =>
            have hxs : x ∈ s := List.getElem?_mem hg
            simpa using hhead x hxs
        omega

/-- The counts of any at most `k` distinct values occurring in a list are
dominated by the counts of its `k` most common values. -/
theorem sum_counts_le_topKCount {β : Type} [DecidableEq β]
    (lm : List β) (k : ℕ) (F : List β) (hnd : F.Nodup)
    (hmem : ∀ w ∈ F, w ∈ lm) (hlen : F.length ≤ k) :
    (F.map (fun w => lm.count w)).sum ≤ topKCount k lm := by
  have hsp : (F.map (fun w => (w, lm.count w))).Subperm (groupCounts lm) := by
    apply List.Nodup.subperm
    · exact List.Nodup.map (fun w₁ w₂ h => congrArg Prod.fst h) hnd
    · intro q hq
      obtain ⟨w, hw, rfl⟩ := List.mem_map.mp hq
      rw [groupCounts]
      exact List.mem_map_of_mem _ (List.mem_dedup.mpr (hmem w hw))
  have h1 : ((F.map (fun w => (w, lm.count w)) : List (β × ℕ)) :
      Multiset (β × ℕ)) ≤ ↑(groupCounts lm) := hsp
  have h2 := Multiset.map_le_map (f := Prod.snd) h1
  have h3 : (Multiset.map Prod.snd
      (↑(F.map (fun w => (w, lm.count w))) : Multiset (β × ℕ))) =
      ((F.map (fun w => lm.count w) : List ℕ) : Multiset ℕ) := by
    rw [show (Multiset.map Prod.snd
        (↑(F.map (fun w => (w, lm.count w))) : Multiset (β × ℕ))) =
        ↑((F.map (fun w => (w, lm.count w))).map Prod.snd) from rfl,
      List.map_map]
    rfl
  have h4 : (Multiset.map Prod.snd (↑(groupCounts lm) : Multiset (β × ℕ))) =
      ↑(((groupCounts lm).insertionSort
        (fun x y => y.2 ≤ x.2)).map Prod.snd) := by
    rw [show (Multiset.map Prod.snd (↑(groupCounts lm) : Multiset (β × ℕ)))
        = ↑((groupCounts lm).map Prod.snd) from rfl]
    exact (Multiset.coe_eq_coe.mpr
      ((List.perm_insertionSort _ _).map Prod.snd)).symm
  rw [h3, h4] at h2
  haveI hTot : IsTotal (β × ℕ) (fun x y => y.2 ≤ x.2) :=
    ⟨fun a b => le_total b.2 a.2⟩
  haveI hTrans : IsTrans (β × ℕ) (fun x y => y.2 ≤ x.2) :=
    ⟨fun a b c hab hbc => le_trans hbc hab⟩
  have hsorted : (((groupCounts lm).insertionSort
      (fun x y => y.2 ≤ x.2)).map Prod.snd).Pairwise
        (fun a b : ℕ => b ≤ a) :=
    List.Pairwise.map Prod.snd (fun a b h => h)
      (List.sorted_insertionSort _ _)
  have hcard : Multiset.card
      ((F.map (fun w => lm.count w) : List ℕ) : Multiset ℕ) ≤ k := by
    rw [Multiset.coe_card, List.length_map]
    exact hlen
  have hfin := sum_le_sum_take _ hsorted k _ h2 hcard
  have htk : topKCount k lm = (((((groupCounts lm).insertionSort
      (fun x y => y.2 ≤ x.2)).map Prod.snd)).take k).sum := by
    rw [topKCount, topKPairs, List.map_take]
  rw [htk]
  exact hfin

/-- Coarsening the values of a list by any map only merges occurrence
groups, so the rows covered by the `k` most common values do not
decrease. -/
theorem topKCount_le_map {α β : Type} [DecidableEq α] [DecidableEq β]
    (φ : α → β) (k : ℕ) (l : List α) :
    topKCount k l ≤ topKCount k (l.map φ) := by
  have hpair : ∀ p ∈ topKPairs k l, p ∈ groupCounts l := by
    intro p hp
    rw [topKPairs] at hp
    have h := List.mem_of_mem_take hp
    rwa [List.mem_insertionSort] at h
  have hsnd : ∀ p ∈ topKPairs k l, p.2 = l.count p.1 := by
    intro p hp
    have hgc := hpair p hp
    rw [groupCounts] at hgc
    obtain ⟨v, hv, rfl⟩ := List.mem_map.mp hgc
    rfl
  have h1 : topKCount k l
      = (((topKPairs k l).map Prod.fst).map (fun v => l.count v)).sum := by
    rw [topKCount, List.map_map]
    congr 1
    apply List.map_congr_left
    intro p hp
    exact hsnd p hp
  have hGnodup : ((topKPairs k l).map Prod.fst).Nodup := by
    have hfst : (groupCounts l).map Prod.fst = l.dedup := by
      rw [groupCounts, List.map_map]
      exact List.map_id _
    have hperm := (List.perm_insertionSort
      (fun x y : (α × ℕ) => y.2 ≤ x.2) (groupCounts l)).map Prod.fst
    have hsort_nodup :
        (((groupCounts l).insertionSort
          (fun x y => y.2 ≤ x.2)).map Prod.fst).Nodup := by
      rw [hperm.nodup_iff, hfst]
      exact List.nodup_dedup l
    have hsubl : ((topKPairs k l).map Prod.fst).Sublist
        (((groupCounts l).insertionSort
          (fun x y => y.2 ≤ x.2)).map Prod.fst) := by
      apply List.Sublist.map
      rw [topKPairs]
      exact List.take_sublist _ _
    exact hsort_nodup.sublist hsubl
  have hGlen : ((topKPairs k l).map Prod.fst).length ≤ k := by
    rw [List.length_map, topKPairs]
    exact List.length_take_le _ _
  have hGmem : ∀ v ∈ (topKPairs k l).map Prod.fst, v ∈ l := by
    intro v hv
    obtain ⟨p, hp, rfl⟩ := List.mem_map.mp hv
    have hgc := hpair p hp
    rw [groupCounts] at hgc
    obtain ⟨w, hw, rfl⟩ := List.mem_map.mp hgc
    exact List.mem_dedup.mp hw
  calc topKCount k l
      = (((topKPairs k l).map Prod.fst).map (fun v => l.count v)).sum := h1
    _ = l.countP (fun x => decide (x ∈ (topKPairs k l).map Prod.fst)) :=
        sum_counts_eq_countP l _ hGnodup
    _ ≤ l.countP (fun x => decide
        (φ x ∈ (((topKPairs k l).map Prod.fst).map φ).dedup)) := by
        apply List.countP_mono_left
        intro x _ hx
        simp only [decide_eq_true_eq] at hx ⊢
        exact List.mem_dedup.mpr (List.mem_map_of_mem φ hx)
    _ = (l.map φ).countP (fun y => decide
        (y ∈ (((topKPairs k l).map Prod.fst).map φ).dedup)) := by
        rw [List.countP_map]
        rfl
    _ = (((((topKPairs k l).map Prod.fst).map φ).dedup).map
          (fun w => (l.map φ).count w)).sum :=
        (sum_counts_eq_countP (l.map φ) _ (List.nodup_dedup _)).symm
    _ ≤ topKCount k (l.map φ) := by
        apply sum_counts_le_topKCount
        · exact List.nodup_dedup _
        · intro w hw
          obtain ⟨v, hv, rfl⟩ := List.mem_map.mp (List.mem_dedup.mp hw)
          exact List.mem_map_of_mem φ (hGmem v hv)
        · calc (((topKPairs k l).map Prod.fst).map φ).dedup.length
              ≤ (((topKPairs k l).map Prod.fst).map φ).length :=
                (List.dedup_sublist _).length_le
            _ = ((topKPairs k l).map Prod.fst).length := by
                rw [List.length_map]
            _ ≤ k := hGlen

/-- For `A ⊆ B`, the projection of a row on `A` is recovered from its
projection on `B` by `refineMap`: the view under `B` refines the view
under `A`. -/
theorem refineMap_projectRow (A B : Finset ℕ) (hAB : A ⊆ B)
    (v : ℕ → String) : refineMap A B (projectRow B v) = projectRow A v := by
  rw [refineMap, projectRow, projectRow]
  have h1 : (sortedIds B).zip ((sortedIds B).map v)
      = (sortedIds B).map (fun i => (i, v i)) := by
    have h := List.zip_map' id v (sortedIds B)
    rw [List.map_id] at h
    exact h
  rw [h1, List.filter_map, List.map_map]
  have h2 : (sortedIds B).filter
      ((fun q : ℕ × String => decide (q.1 ∈ A)) ∘ (fun i => (i, v i)))
      = sortedIds A := by
    rw [show ((fun q : ℕ × String => decide (q.1 ∈ A)) ∘
        (fun i => (i, v i))) = fun i => decide (i ∈ A) from rfl]
    haveI : IsAntisymm ℕ (· < ·) :=
      ⟨fun a b h1 h2 => absurd h1 (not_lt.mpr (le_of_lt h2))⟩
    apply List.eq_of_perm_of_sorted (r := fun a b : ℕ => a < b)
    · rw [List.perm_ext_iff_of_nodup
        ((sortedIds_nodup B).filter _) (sortedIds_nodup A)]
      intro a
      rw [List.mem_filter]
      simp only [decide_eq_true_eq]
      rw [mem_sortedIds, mem_sortedIds]
      exact ⟨fun h => h.2, fun h => ⟨hAB h, h⟩⟩
    · exact (sortedIds_pairwise_lt B).filter _
    · exact sortedIds_pairwise_lt A
  rw [h2]
  rfl

/-- C3: the `TopKFingerprints` sensitivity measure with any fixed `k` is
monotonically non-increasing under set inclusion: over the same
deduplicated view, for all attribute sets `A ⊆ B`,
`evaluate B ≤ evaluate A`. -/
theorem topk_fingerprints_monotone (V : List (ℕ → String)) (k : ℕ)
    (A B : Finset ℕ) (hAB : A ⊆ B) :
    topKFingerprintsEvaluate V k B ≤ topKFingerprintsEvaluate V k A := by
  rw [topKFingerprintsEvaluate, topKFingerprintsEvaluate, topKShare,
    topKShare]
  have hmap : V.map (projectRow A)
      = (V.map (projectRow B)).map (refineMap A B) := by
    rw [List.map_map]
    apply List.map_congr_left
    intro v _
    exact (refineMap_projectRow A B hAB v).symm
  have hcount : topKCount k (V.map (projectRow B)) ≤
      topKCount k (V.map (projectRow A)) := by
    rw [hmap]
    exact topKCount_le_map (refineMap A B) k (V.map (projectRow B))
  have hlen : (V.map (projectRow B)).length
      = (V.map (projectRow A)).length := by
    rw [List.length_map, List.length_map]
  rw [hlen]
  rcases Nat.eq_zero_or_pos (V.map (projectRow A)).length with h0 | hpos
  · rw [h0]
    simp
  · have hc : (0 : ℚ) < ((V.map (projectRow A)).length : ℚ) := by
      exact_mod_cast hpos
    rw [div_le_div_iff_of_pos_right hc]
    exact_mod_cast hcount

/-- Witness for C3: on the two-browser view, the evaluation under the full
set `{1, 2}` is at most the evaluation under the subset `{1}`. -/
theorem topk_fingerprints_monotone_witness :
    ({1} : Finset ℕ) ⊆ {1, 2}
    ∧ topKFingerprintsEvaluate exampleTopKView 1 {1, 2} ≤
        topKFingerprintsEvaluate exampleTopKView 1 {1} :=
  ⟨by decide, topk_fingerprints_monotone exampleTopKView 1 {1} {1, 2}
    (by decide)⟩

end BrFAST
